import Mathlib

/-!
Verification of the chemistry-lab-server formula parser and significant-figure
arithmetic (`chemistry/formula/tokenizer.py`, `chemistry/formula/parser.py`,
`chemistry/scinotation.py`).

Python strings are modelled as `List Char`, Python `Decimal`/`Fraction` values
as exact fractions.  Python `Decimal` arithmetic operates in a context of 28 significant
digits with round-half-even; this is modelled by `sigRound28` applied to the
exact rational result of each operation.  Raising an exception is modelled by
`Except`/`Option` results.
-/

namespace ChemLab

abbrev Str := List Char

/-! ### Digit and rational helpers -/

/-- Numeric value of a digit character (Python `int(char)` for `'0'..'9'`). -/
def digitVal (c : Char) : ℕ := c.toNat - '0'.toNat

/-- Base-10 digits of `n`, least significant first, with explicit fuel so that
the definition is structural (kernel-reducible).  Fuel `n + 1` never runs out
(`n / 10` shrinks strictly), so the digits are exact for every `n`, as Python's
unbounded-integer `str` is. -/
def natDigitsRevAux : ℕ → ℕ → List ℕ
  | 0, _ => []
  | _ + 1, 0 => []
  | fuel + 1, n => n % 10 :: natDigitsRevAux fuel (n / 10)

/-- Base-10 digits of `n`, most significant first (`[]` for `0`). -/
def natDigits (n : ℕ) : List ℕ := (natDigitsRevAux (n + 1) n).reverse

/-- Number of base-10 digits of `n` (`0` for `0`). -/
def digitCount (n : ℕ) : ℕ := (natDigitsRevAux (n + 1) n).length

/-- Decimal digit characters of `n`, most significant first (`"0"` for `0`),
as produced by Python `str` on a nonnegative integer. -/
def natChars (n : ℕ) : Str :=
  match natDigits n with
  | [] => ['0']
  | ds => ds.map (fun d => Char.ofNat (d + '0'.toNat))

/-! ### Exact fractions

Python's `fractions.Fraction` (and, value-wise, `decimal.Decimal`) is modelled
by a numerator/denominator pair normalized on construction, exactly as
`Fraction` normalizes.  Mathlib's `ℚ` is not used inside the executable
definitions because its arithmetic does not reduce inside the kernel; `Frac`
arithmetic is structurally recursive, so concrete runs of the pipeline can be
checked by `decide`/`rfl`.  `Frac.val` maps into `ℚ` for stating value-level
properties. -/

/-- Euclid's algorithm with explicit fuel (structural, kernel-reducible).
The fuel never runs out when `m < fuel`, see `fgcd_eq_gcd`. -/
def fgcd : ℕ → ℕ → ℕ → ℕ
  | 0, _, _ => 1
  | fuel + 1, m, n => if m = 0 then n else fgcd fuel (n % m) m

/-- An exact fraction: integer numerator, natural denominator. All values
produced by the pipeline are normalized (coprime, positive denominator), as
Python's `Fraction` guarantees. -/
structure Frac where
  num : ℤ
  den : ℕ
deriving DecidableEq, Repr

namespace Frac

/-- Build a normalized fraction from a numerator and a nonzero denominator
(the `Fraction` constructor).  A zero denominator (which raises in Python, and
is always guarded in the sources) yields a junk value. -/
def mk' (n : ℤ) (d : ℕ) : Frac :=
  if d = 0 then ⟨0, 0⟩
  else
    let g := fgcd (n.natAbs + 1) n.natAbs d
    ⟨n / (g : ℤ), d / g⟩

instance : OfNat Frac n := ⟨⟨n, 1⟩⟩

instance : NatCast Frac := ⟨fun n => ⟨n, 1⟩⟩

instance : Add Frac := ⟨fun a b => mk' (a.num * b.den + b.num * a.den) (a.den * b.den)⟩

instance : Sub Frac := ⟨fun a b => mk' (a.num * b.den - b.num * a.den) (a.den * b.den)⟩

instance : Mul Frac := ⟨fun a b => mk' (a.num * b.num) (a.den * b.den)⟩

/-- Division (used with nonzero divisors only). -/
instance : Div Frac := ⟨fun a b =>
  mk' (a.num * b.den * b.num.sign) (a.den * b.num.natAbs)⟩

/-- Cross-multiplication order (valid for the positive denominators the
pipeline maintains). -/
instance : LT Frac := ⟨fun a b => a.num * b.den < b.num * a.den⟩

instance : LE Frac := ⟨fun a b => a.num * b.den ≤ b.num * a.den⟩

instance (a b : Frac) : Decidable (a < b) :=
  inferInstanceAs (Decidable (_ < _))

instance (a b : Frac) : Decidable (a ≤ b) :=
  inferInstanceAs (Decidable (_ ≤ _))

/-- `math.floor` of the fraction. -/
def floorInt (f : Frac) : ℤ := Int.fdiv f.num f.den

end Frac

/-- `10^k` as a fraction, for an integer (possibly negative) exponent. -/
def decPow10 (k : ℤ) : Frac :=
  if 0 ≤ k then ⟨(10 : ℤ) ^ k.toNat, 1⟩ else ⟨1, 10 ^ (-k).toNat⟩

/-- For `x > 0`, the unique `e` with `10^e ≤ x < 10^(e+1)`
(the "adjusted exponent" of the Python `Decimal` representing `x`). -/
def ratSigExp (x : Frac) : ℤ :=
  let a : ℤ := (digitCount x.num.natAbs : ℤ) - 1
  let b : ℤ := (digitCount x.den : ℤ) - 1
  if x < decPow10 (a - b) then a - b - 1 else a - b

/-- Round a nonnegative rational to `prec` significant digits, half to even:
the rounding Python's `Decimal` context (precision 28, `ROUND_HALF_EVEN`)
applies to every arithmetic result. -/
def sigRound (prec : ℕ) (x : Frac) : Frac :=
  if x ≤ 0 then 0
  else
    let e := ratSigExp x
    let m := x * decPow10 ((prec : ℤ) - 1 - e)
    let n := m.floorInt.toNat
    let r := m - (n : Frac)
    let n' : ℕ :=
      if (⟨1, 2⟩ : Frac) < r then n + 1
      else if r < (⟨1, 2⟩ : Frac) then n
      else if n % 2 = 0 then n else n + 1
    (n' : Frac) * decPow10 (e - (prec : ℤ) + 1)

/-- The default Python `Decimal` context rounding: 28 significant digits. -/
def sigRound28 (x : Frac) : Frac := sigRound 28 x

/-- `round(d, 3)` on a nonnegative Python `Decimal`: quantize to 3 decimal
places, half to even. -/
def quantize3 (x : Frac) : Frac :=
  let m := x * 1000
  let n := m.floorInt.toNat
  let r := m - (n : Frac)
  let n' : ℕ :=
    if (⟨1, 2⟩ : Frac) < r then n + 1
    else if r < (⟨1, 2⟩ : Frac) then n
    else if n % 2 = 0 then n else n + 1
  Frac.mk' n' 1000

/-- Parse the decimal literals produced inside the tokenizer/parser pipeline
(Python `Decimal(str)` / `Fraction(str)` on strings made of digits with at most
one decimal point).  Signs and exponent forms never occur in those strings. -/
def splitOnDot (s : Str) : Option (Str × Str) :=
  match s.span (· ≠ '.') with
  | (ip, []) => some (ip, ([] : Str))
  | (ip, _ :: fp) => if fp.any (· = '.') then none else some (ip, fp)

def decimalOfString (s : Str) : Option Frac :=
  match s with
  | [] => none
  | _ =>
    match splitOnDot s with
    | none => none
    | some (ip, fp) =>
      if ip.all Char.isDigit ∧ fp.all Char.isDigit ∧ (ip ≠ [] ∨ fp ≠ []) then
        let ival : ℕ := ip.foldl (fun a c => a * 10 + digitVal c) 0
        let fval : ℕ := fp.foldl (fun a c => a * 10 + digitVal c) 0
        some (Frac.mk' (ival * 10 ^ fp.length + fval : ℕ) (10 ^ fp.length))
      else none

/-- Render a rational of the form `k/1000` the way Python prints a `Decimal`
quantized to three decimal places (`str(round(Decimal(a)/Decimal(b), 3))`),
e.g. `0.500`, `1.333`. -/
def renderDec3 (q : Frac) : Str :=
  let k : ℕ := (q * 1000).floorInt.toNat
  let ds := natChars k
  let ds := if ds.length < 4 then List.replicate (4 - ds.length) '0' ++ ds else ds
  ds.take (ds.length - 3) ++ '.' :: ds.drop (ds.length - 3)

/-- Render an exact count the way Python prints a `Fraction`
(`str(Fraction)`): just the numerator when the denominator is 1, otherwise
`num/den`.  Only nonnegative counts occur. -/
def renderCount (q : Frac) : Str :=
  if q.den = 1 then natChars q.num.natAbs
  else natChars q.num.natAbs ++ '/' :: natChars q.den

/-! ### `Count` (scinotation.py `Count`)

`Count` wraps an exact `Fraction`; addition and multiplication are exact
rational operations.  It is modelled directly as `Frac`. -/

abbrev Count := Frac

/-! ### `Scinot` (scinotation.py)

`Scinot.parse` normalizes every value to a single-digit integral part, a list
of fraction digits and an integer exponent, so the type carries exactly those
three fields.  The Python fields are strings of digit characters; they are
modelled as `ℕ` / `List ℕ` digits.  Only nonnegative values are modelled: the
source's `parse` mishandles a leading `-` (the minus sign ends up as the
"integral" string), and every negative intermediate value crashes when it is
re-parsed, so the data-model invariant of the spec (single leading digit) only
ever holds for nonnegative values. -/

structure Scinot where
  integral : ℕ
  decimal : List ℕ
  exponent : ℤ
deriving DecidableEq, Repr

namespace Scinot

/-- The normalization performed by `Scinot.parse` when the integral digit is
zero: shift fraction digits into the integral position, decrementing the
exponent, until a nonzero leading digit is found or the digits run out.
(The other `parse` loop, which shifts a multi-digit integral part right, never
fires here because the integral part is always a single digit.) -/
def parseShift : ℕ → List ℕ → ℤ → Scinot
  | 0, [], e => ⟨0, [], e⟩
  | 0, d :: rest, e => parseShift d rest (e - 1)
  | i, ds, e => ⟨i, ds, e⟩

/-- Build a `Scinot` from a digit string `d.ddd… x10^e` the way the
constructor's `parse` does. -/
def parseDigits (ds : List ℕ) (e : ℤ) : Scinot :=
  match ds with
  | [] => ⟨0, [], e⟩
  | d :: rest => parseShift d rest e

/-- Count trailing nines of a reversed digit list, never consuming the last
remaining digit (`while _number[-1] == '9' and len(_number) > 1`). -/
def strip9Rev : List ℕ → List ℕ × ℕ
  | [] => ([], 0)
  | [d] => ([d], 0)
  | d :: rest =>
    if d = 9 then
      let (r, t) := strip9Rev rest
      (r, t + 1)
    else (d :: rest, 0)

/-- `_round_last`: round-half-up on the final digit of the (already
truncated-to-`digits+1`) value, with carry propagation through trailing nines;
a carry past the leading digit makes the digits `10…0` and increments the
exponent. -/
def roundLast (v : Scinot) : Scinot :=
  let number := v.integral :: v.decimal
  let e := v.exponent
  match number.getLast? with
  | none => v
  | some lastD =>
    let number := number.dropLast
    if 5 ≤ lastD then
      match number with
      | [] => v   -- unreachable from `roundTo` (there `number.length = digits + 1 ≥ 2`)
      | _ =>
        let (strippedRev, t) := strip9Rev number.reverse
        let stripped := strippedRev.reverse
        let nextLast := (stripped.getLast?.getD 0) + 1
        if nextLast = 10 then
          -- only when a single digit 9 remains: digits become 1,0 plus the
          -- (shortened by one) run of zeros, exponent increments
          parseDigits (1 :: 0 :: List.replicate (t - 1) 0) (e + 1)
        else
          parseDigits (stripped.dropLast ++ nextLast :: List.replicate t 0) e
    else parseDigits number e

/-- `__round__(digits)`: truncate the digit string to `digits + 1` places,
zero-pad on the right up to `digits` when shorter, and hand the extra digit to
`_round_last` when one was kept. -/
def roundTo (s : Scinot) (digits : ℕ) : Scinot :=
  let sval := s.integral :: s.decimal
  let trunc := sval.take (digits + 1)
  let len := trunc.length
  let padded := if len < digits then trunc ++ List.replicate (digits - len) 0 else trunc
  let inter := parseDigits padded s.exponent
  if len ≤ digits then inter else roundLast inter

end Scinot

/-! ### Tokenizer (formula/tokenizer.py)

The tokenizer is a character-level state machine.  Python exceptions are
modelled as `Except PyErr`; the `print` debugging statements in the source
have no effect on the result and are omitted. -/

inductive PyErr where
  | tokenizeError (msg : String)
  | parseError (msg : String)
  | valueError
  | typeError
deriving DecidableEq, Repr

inductive FormulaTokenType where
  | SYMBOL
  | SUBSCRIPT
  | COEFFICIENT
  | COMBINDED_WITH
  | POLYATOMIC_START
  | POLYATOMIC_END
  | STATE
deriving DecidableEq, Repr

structure FormulaToken where
  type : FormulaTokenType
  value : Str
deriving DecidableEq, Repr

inductive TokenState where
  | START
  | COEFFICIENT
  | SYMBOL
  | EXPECT_SYMBOL
  | SUBSCRIPT
  | POLYATOMIC_END
deriving DecidableEq, Repr

/-- `tokens[-1].value`, with a junk default for the (unreachable) empty case. -/
def lastValue (tokens : List FormulaToken) : Str :=
  ((tokens.getLast?).map FormulaToken.value).getD []

/-- Python `list.insert(i, x)`: a negative index counts from the end (clamped
at 0); an index past the end appends. -/
def pyInsert (l : List α) (i : ℤ) (x : α) : List α :=
  let idx : ℕ := if i < 0 then l.length - (-i).toNat else min i.toNat l.length
  l.take idx ++ x :: l.drop idx

def state_start (char : Char) (tokens : List FormulaToken) (polyatomic : Bool) :
    Except PyErr (TokenState × Str × List FormulaToken × Bool) :=
  if char = '[' then .ok (.COEFFICIENT, [], tokens, polyatomic)
  else if char.isAlpha then .ok (.SYMBOL, [char], tokens, polyatomic)
  else if char = '(' then
    .ok (.START, [], tokens ++ [⟨.POLYATOMIC_START, ['(']⟩], true)
  else .error (.tokenizeError "invalid character")

def state_coefficient (char : Char) (token : Str) (tokens : List FormulaToken) :
    Except PyErr (TokenState × Str × List FormulaToken) :=
  let token := if char.isDigit ∨ char = '/' then token ++ [char] else token
  if char = ']' then
    if token = [] then .error (.tokenizeError "missing coefficient")
    else if token.any (· = '/') then
      -- token.split('/'), Decimal quotient (28-digit context) rounded to
      -- three decimal places, re-rendered as the coefficient text
      let numbers := token.splitOn '/'
      match decimalOfString (numbers.getD 0 []), decimalOfString (numbers.getD 1 []) with
      | some q0, some q1 =>
        if q1 = 0 then .error .valueError   -- DivisionByZero
        else
          .ok (.EXPECT_SYMBOL, [],
            tokens ++ [⟨.COEFFICIENT, renderDec3 (quantize3 (sigRound28 (q0 / q1)))⟩])
      | _, _ => .error .valueError          -- InvalidOperation on Decimal('')
    else .ok (.EXPECT_SYMBOL, [], tokens ++ [⟨.COEFFICIENT, token⟩])
  else .ok (.COEFFICIENT, token, tokens)

def state_symbol (pos : ℕ) (char : Char) (token : Str) (tokens : List FormulaToken)
    (polyatomic : Bool) (ion : List Str) (start_pos : List ℤ) :
    Except PyErr (TokenState × Str × List FormulaToken × Bool × List Str × List ℤ) :=
  if char.isAlpha then
    if char.isUpper then
      -- `token` is reassigned to the new char *before* `pos - len(token)` is
      -- computed, so the recorded offset is always `pos - 1`
      .ok (.SYMBOL, [char], tokens ++ [⟨.SYMBOL, token⟩], polyatomic,
        ion ++ [token], start_pos ++ [(pos : ℤ) - 1])
    else .ok (.SYMBOL, token ++ [char], tokens, polyatomic, ion, start_pos)
  else if char.isDigit then
    .ok (.SUBSCRIPT, [char], tokens ++ [⟨.SYMBOL, token⟩], polyatomic, ion, start_pos)
  else if char = '*' then
    .ok (.START, [], tokens ++ [⟨.SYMBOL, token⟩, ⟨.COMBINDED_WITH, ['*']⟩],
      polyatomic, ion, start_pos)
  else if char = '(' then
    .ok (.START, [], tokens ++ [⟨.SYMBOL, token⟩, ⟨.POLYATOMIC_START, ['(']⟩],
      true, ion, start_pos)
  else if char = ')' then
    if polyatomic then
      if token = ['s'] ∨ token = ['l'] ∨ token = ['g'] ∨ token = ['a', 'q'] then
        .ok (.POLYATOMIC_END, [], tokens.dropLast ++ [⟨.STATE, token⟩],
          false, ion, start_pos)
      else
        .ok (.POLYATOMIC_END, [],
          tokens ++ [⟨.SYMBOL, token⟩, ⟨.POLYATOMIC_END, [')']⟩], false, ion, start_pos)
    else .error (.tokenizeError "invalid character")
  else .error (.tokenizeError "invalid character")

def state_expect_symbol (char : Char) : Except PyErr (TokenState × Str) :=
  if char.isAlpha then .ok (.SYMBOL, [char])
  else .error (.tokenizeError "invalid character")

def state_subscript (pos : ℕ) (char : Char) (token : Str) (tokens : List FormulaToken)
    (polyatomic : Bool) (ion : List Str) (start_pos : List ℤ) :
    Except PyErr (TokenState × Str × List FormulaToken × Bool × List Str × List ℤ) :=
  if char.isDigit then
    .ok (.SUBSCRIPT, token ++ [char], tokens, polyatomic, ion, start_pos)
  else if char.isAlpha then
    .ok (.SYMBOL, [char], tokens ++ [⟨.SUBSCRIPT, token⟩], polyatomic,
      ion ++ [lastValue tokens ++ token],
      start_pos ++ [(pos : ℤ) - ((lastValue tokens ++ token).length : ℤ)])
  else if char = '*' then
    .ok (.START, [], tokens ++ [⟨.SUBSCRIPT, token⟩, ⟨.COMBINDED_WITH, ['*']⟩],
      polyatomic, ion ++ [lastValue tokens ++ token],
      start_pos ++ [(pos : ℤ) - ((lastValue tokens ++ token).length : ℤ)])
  else if char = '(' then
    .ok (.START, [], tokens ++ [⟨.SUBSCRIPT, token⟩, ⟨.POLYATOMIC_START, ['(']⟩],
      true, ion ++ [lastValue tokens ++ token],
      start_pos ++ [(pos : ℤ) - ((lastValue tokens ++ token).length : ℤ)])
  else if char = ')' then
    if polyatomic then
      .ok (.POLYATOMIC_END, [],
        tokens ++ [⟨.SUBSCRIPT, token⟩, ⟨.POLYATOMIC_END, [')']⟩], false, ion, start_pos)
    else .error (.tokenizeError "invalid character")
  else .error (.tokenizeError "invalid character")

def state_polyatomic_end (char : Char) (tokens : List FormulaToken) :
    Except PyErr (TokenState × Str × List FormulaToken × Bool) :=
  if char.isAlpha then .ok (.SYMBOL, [char], tokens, false)
  else if char.isDigit then .ok (.SUBSCRIPT, [char], tokens, false)
  else if char = '*' then
    .ok (.START, [], tokens ++ [⟨.COMBINDED_WITH, ['*']⟩], false)
  else if char = '(' then
    .ok (.START, [], tokens ++ [⟨.POLYATOMIC_START, ['(']⟩], true)
  else .error (.tokenizeError "invalid character")

/-- The loop state of `tokenize`: emitted tokens, the token text being
accumulated, the machine state, the inside-a-group flag, and the rolling
lookback window (`start_pos`, `ion`) used for implicit polyatomic-ion
detection. -/
structure TokSt where
  tokens : List FormulaToken
  token : Str
  state : TokenState
  polyatomic : Bool
  start_pos : List ℤ
  ion : List Str
deriving Repr

/-- The end-of-iteration bookkeeping of the character loop: a lookback window
of three entries immediately drops its oldest entry, and inside an explicit
group the window is reset. -/
def windowAdjust (st1 : TokSt) : TokSt :=
  let st2 :=
    if st1.start_pos.length = 3 then
      { st1 with start_pos := st1.start_pos.tail, ion := st1.ion.tail }
    else st1
  if st2.polyatomic then { st2 with start_pos := [], ion := [] } else st2

/-- One iteration of the `for pos, char in enumerate(formula)` loop. -/
def tokStep (st : TokSt) (pos : ℕ) (char : Char) : Except PyErr TokSt := do
  let st1 : TokSt ←
    match st.state with
    | .START => do
      -- the lookback window is cleared on every character read in START state
      let (state, token, tokens, polyatomic) ← state_start char st.tokens st.polyatomic
      pure ⟨tokens, token, state, polyatomic, [], []⟩
    | .COEFFICIENT => do
      let (state, token, tokens) ← state_coefficient char st.token st.tokens
      pure { st with tokens, token, state }
    | .SYMBOL => do
      let (state, token, tokens, polyatomic, ion, start_pos) ←
        state_symbol pos char st.token st.tokens st.polyatomic st.ion st.start_pos
      pure ⟨tokens, token, state, polyatomic, start_pos, ion⟩
    | .EXPECT_SYMBOL => do
      let (state, token) ← state_expect_symbol char
      pure { st with token, state }
    | .SUBSCRIPT => do
      let (state, token, tokens, polyatomic, ion, start_pos) ←
        state_subscript pos char st.token st.tokens st.polyatomic st.ion st.start_pos
      pure ⟨tokens, token, state, polyatomic, start_pos, ion⟩
    | .POLYATOMIC_END => do
      let (state, token, tokens, polyatomic) ← state_polyatomic_end char st.tokens
      pure { st with tokens, token, state, polyatomic }
  pure (windowAdjust st1)

def tokLoop (st : TokSt) (pos : ℕ) : Str → Except PyErr TokSt
  | [] => .ok st
  | c :: rest => do tokLoop (← tokStep st pos c) (pos + 1) rest

/-- The first end-of-input lookback test: a full three-entry window whose
concatenation is a known ion gets POLYATOMIC_START/END inserted around it (and
the window cleared); otherwise the oldest entry is dropped. -/
def tokWindow3 (ions : Str → Bool) (st : TokSt) : TokSt :=
  if st.start_pos.length = 3 then
    if ions st.ion.flatten then
      { st with
        tokens := pyInsert st.tokens (st.start_pos.headD 0) ⟨.POLYATOMIC_START, ['(']⟩ ++
          [⟨.POLYATOMIC_END, [')']⟩]
        start_pos := []
        ion := [] }
    else { st with start_pos := st.start_pos.tail, ion := st.ion.tail }
  else st

/-- The second end-of-input lookback test, on the (possibly shrunk) two-entry
window; the final token list is returned. -/
def tokWindow2 (ions : Str → Bool) (st : TokSt) : List FormulaToken :=
  if st.start_pos.length = 2 then
    if ions st.ion.flatten then
      pyInsert st.tokens (st.start_pos.headD 0) ⟨.POLYATOMIC_START, ['(']⟩ ++
        [⟨.POLYATOMIC_END, [')']⟩]
    else st.tokens
  else st.tokens

/-- The code after the character loop: flush a pending SYMBOL/SUBSCRIPT token
(anything else pending is an `unexpected formula termination` error), then
test the trailing lookback window against the ion table, retroactively
inserting POLYATOMIC_START/END around the matched span. -/
def tokFinish (ions : Str → Bool) (st : TokSt) : Except PyErr (List FormulaToken) := do
  let st ←
    if st.token ≠ [] then
      match st.state with
      | .SUBSCRIPT =>
        pure { st with
          ion := st.ion ++ [lastValue st.tokens ++ st.token],
          tokens := st.tokens ++ [⟨.SUBSCRIPT, st.token⟩],
          start_pos := st.start_pos ++ [-1] }
      | .SYMBOL =>
        pure { st with
          tokens := st.tokens ++ [⟨.SYMBOL, st.token⟩],
          ion := st.ion ++ [st.token],
          start_pos := st.start_pos ++ [-1] }
      | _ => .error (.tokenizeError "unexpected formula termination")
    else pure st
  pure (tokWindow2 ions (tokWindow3 ions st))

/-- `tokenize(formula)`.  The ion lookup table (`Ions()`, from
`chemistry/periodictable.py`, which is not part of the sources) is passed as a
membership test. -/
def tokenize (ions : Str → Bool) (formula : Str) : Except PyErr (List FormulaToken) := do
  tokFinish ions (← tokLoop ⟨[], [], .START, false, [], []⟩ 0 formula)

/-- `Modelled from the spec:` the named-ion lookup table `Ions()` lives in
`chemistry/periodictable.py`, which is missing from the sources.  The spec
describes it as a keyed lookup of known polyatomic-ion names (sulfate,
carbonate, hydroxide, …); this membership test lists the common polyatomic
ions.  Whole formulas such as `H2O` or `Na2CO3` are not ion names and are
absent. -/
def specIons : Str → Bool := fun s =>
  (["OH", "CO3", "HCO3", "NO3", "NO2", "SO4", "SO3", "PO4", "PO3", "NH4",
    "CN", "ClO", "ClO2", "ClO3", "ClO4", "MnO4", "CrO4", "Cr2O7", "C2H3O2",
    "C2O4", "S2O3", "O2", "SCN"].map String.toList).contains s

/-- An ion table containing nothing: the "if absent" side of the claims. -/
def emptyIons : Str → Bool := fun _ => false

/-! ### Parser (formula/parser.py) -/

inductive FormulaNodeType where
  | COMPOUND
  | ATOM
  | MONATOMIC_ION
  | POLYATOMIC_ION
deriving DecidableEq, Repr

inductive CompoundState where
  | UNDEFINED
  | GAS
  | LIQUID
  | SOLID
  | AQUEOUS
deriving DecidableEq, Repr

mutual
/-- The formula tree node.  The Python code uses a class hierarchy
(`FormulaNode`, `CompoundNode`, `AtomNode`); the only behavioural difference
is the `state` field of `CompoundNode`, carried here on every node (it is
`UNDEFINED` outside compounds).  `children` is a bespoke list type so that the
mutual recursions over the tree stay structural. -/
inductive FormulaNode where
  | mk (count : Count) (symbol : Str) (ntype : FormulaNodeType)
      (children : NodeList) (cstate : CompoundState)

inductive NodeList where
  | nil
  | cons (head : FormulaNode) (tail : NodeList)
end

namespace FormulaNode

def count : FormulaNode → Count
  | .mk c _ _ _ _ => c

def symbol : FormulaNode → Str
  | .mk _ s _ _ _ => s

def ntype : FormulaNode → FormulaNodeType
  | .mk _ _ t _ _ => t

def children : FormulaNode → NodeList
  | .mk _ _ _ ch _ => ch

def cstate : FormulaNode → CompoundState
  | .mk _ _ _ _ st => st

end FormulaNode

def NodeList.ofList : List FormulaNode → NodeList
  | [] => .nil
  | n :: ns => .cons n (NodeList.ofList ns)

/-- `_parse_pass_one` output: a per-compound group whose elements are tokens
or nested token groups.  The nested groups are plain token lists — pass one
never nests deeper (an inner `POLYATOMIC_START` only re-enters the POLYATOMIC
state). -/
inductive P1Item where
  | tok (t : FormulaToken)
  | group (ts : List FormulaToken)
deriving DecidableEq, Repr

/-- State of the `_parse_pass_one` loop (`COMPOUND = 0`, `POLYATOMIC = 1`,
`POLYATOMIC_END = 2`). -/
inductive P1State where
  | COMPOUND
  | POLYATOMIC
  | POLYATOMIC_END
deriving DecidableEq, Repr

structure P1St where
  root : List (List P1Item)
  compound : List P1Item
  polyatomic : List FormulaToken
  state : P1State
deriving Repr

/-- One iteration of the `_parse_pass_one` token loop: the source is a chain
of independent `if` tests on the token type (at most one fires). -/
def p1Step (st : P1St) (t : FormulaToken) : P1St :=
  match t.type with
  | .COMBINDED_WITH => { st with root := st.root ++ [st.compound], compound := [] }
  | .POLYATOMIC_START => { st with state := .POLYATOMIC }
  | .POLYATOMIC_END => { st with state := .POLYATOMIC_END }
  | .COEFFICIENT =>
    match st.state with
    | .COMPOUND => { st with compound := st.compound ++ [.tok t] }
    | .POLYATOMIC => { st with polyatomic := st.polyatomic ++ [t] }
    | .POLYATOMIC_END =>
      { st with
        compound := st.compound ++ [P1Item.group st.polyatomic, P1Item.tok t]
        polyatomic := []
        state := .COMPOUND }
  | .SUBSCRIPT =>
    match st.state with
    | .COMPOUND => { st with compound := st.compound ++ [.tok t] }
    | .POLYATOMIC => { st with polyatomic := st.polyatomic ++ [t] }
    | .POLYATOMIC_END =>
      { st with
        compound := st.compound ++ [P1Item.group (t :: st.polyatomic)]
        polyatomic := []
        state := .COMPOUND }
  | .SYMBOL =>
    match st.state with
    | .COMPOUND => { st with compound := st.compound ++ [.tok t] }
    | .POLYATOMIC => { st with polyatomic := st.polyatomic ++ [t] }
    | .POLYATOMIC_END =>
      { st with
        compound := st.compound ++ [P1Item.group st.polyatomic, P1Item.tok t]
        polyatomic := []
        state := .COMPOUND }
  | .STATE =>
    match st.state with
    | .COMPOUND => { st with compound := P1Item.tok t :: st.compound }
    | _ => st

/-- `_parse_pass_one`: group the token stream into per-compound item lists. -/
def parsePassOne (tokens : List FormulaToken) : List (List P1Item) :=
  let st := tokens.foldl p1Step ⟨[], [], [], .COMPOUND⟩
  let compound :=
    if st.polyatomic ≠ [] then st.compound ++ [P1Item.group st.polyatomic] else st.compound
  st.root ++ [compound]

/-- Parser states of `_parse_pass_two`. -/
inductive ParseState where
  | START
  | COEFFICIENT
  | SYMBOL
  | SUBSCRIPT
deriving DecidableEq, Repr

/-- The loop state of `_parse_pass_two`. -/
structure P2St where
  atoms : List FormulaNode
  state : ParseState
  coefficient : Frac
  symbol : Str
  compound : Str
  cstate : CompoundState

/-- One non-group token step of `_parse_pass_two` (the `state_start`,
`state_coefficient`, `state_symbol`, `state_subscript` helpers of
parser.py). -/
def p2StepTok (polyatomic : Bool) (st : P2St) (t : FormulaToken) :
    Except PyErr P2St :=
  match st.state with
  | .START =>
    -- parser.state_start
    match t.type with
    | .COEFFICIENT =>
      match decimalOfString t.value with
      | some q => .ok { st with coefficient := q, state := .COEFFICIENT }
      | none => .error .valueError
    | .SYMBOL => .ok { st with symbol := t.value, state := .SYMBOL }
    | .SUBSCRIPT =>
      if polyatomic then
        match decimalOfString t.value with
        | some q => .ok { st with coefficient := q, state := .COEFFICIENT }
        | none => .error .valueError
      else .error (.parseError "unexpected token, expected coefficient or symbol")
    | .STATE =>
      let cstate :=
        if t.value = ['s'] then CompoundState.SOLID
        else if t.value = ['l'] then CompoundState.LIQUID
        else if t.value = ['g'] then CompoundState.GAS
        else if t.value = ['a', 'q'] then CompoundState.AQUEOUS
        else st.cstate
      .ok { st with cstate, state := .START }
    | _ => .error (.parseError "unexpected token, expected coefficient or symbol")
  | .COEFFICIENT =>
    -- parser.state_coefficient
    match t.type with
    | .SYMBOL => .ok { st with symbol := t.value, state := .SYMBOL }
    | _ => .error (.parseError "unexpected token, expected symbol")
  | .SYMBOL =>
    -- parser.state_symbol
    match t.type with
    | .SYMBOL =>
      .ok { st with
        atoms := st.atoms ++ [.mk 1 st.symbol .ATOM .nil .UNDEFINED],
        compound := st.compound ++ st.symbol,
        symbol := t.value, state := .SYMBOL }
    | .SUBSCRIPT =>
      match decimalOfString t.value with
      | some q =>
        .ok { st with
          atoms := st.atoms ++ [.mk q st.symbol .ATOM .nil .UNDEFINED],
          compound := st.compound ++ st.symbol ++ t.value,
          symbol := [], state := .SUBSCRIPT }
      | none => .error .valueError
    | _ => .error (.parseError "unexpected token, expected symbol or subscript")
  | .SUBSCRIPT =>
    -- parser.state_subscript
    match t.type with
    | .SYMBOL => .ok { st with symbol := t.value, state := .SYMBOL }
    | _ => .error (.parseError "unexpected token, expected symbol")

/-- The tail of `_parse_pass_two`: flush a pending bare symbol, then build the
node (a POLYATOMIC_ION for a nested group, else a COMPOUND). -/
def p2Finish (polyatomic : Bool) (st : P2St) : FormulaNode :=
  let st :=
    if st.symbol ≠ [] ∧ st.state = .SYMBOL then
      { st with
        compound := st.compound ++ st.symbol,
        atoms := st.atoms ++ [.mk 1 st.symbol .ATOM .nil .UNDEFINED] }
    else st
  if polyatomic then
    .mk st.coefficient st.compound .POLYATOMIC_ION (.ofList st.atoms) .UNDEFINED
  else
    .mk st.coefficient st.compound .COMPOUND (.ofList st.atoms) st.cstate

/-- The initial `_parse_pass_two` loop state (`coefficient = Decimal('1.000')`,
everything else empty). -/
def p2Init : P2St := ⟨[], .START, 1, [], [], .UNDEFINED⟩

/-- `_parse_pass_two(tokens, polyatomic=True)` on a nested token group.  The
source calls `_parse_pass_two` recursively; a nested group holds only plain
tokens (pass one never nests two levels), so this instance of the recursion
contains no group branches. -/
def parseGroup (ts : List FormulaToken) : Except PyErr FormulaNode := do
  let st ← ts.foldlM (p2StepTok true) p2Init
  pure (p2Finish true st)

/-- One item step of the outer `_parse_pass_two` loop, including the
`isinstance(token, list)` branches. -/
def p2StepItem (st : P2St) : P1Item → Except PyErr P2St
  | .tok t => p2StepTok false st t
  | .group ts =>
    match st.state with
    | .START => do
      let ion ← parseGroup ts
      .ok { st with atoms := st.atoms ++ [ion] }
    | .COEFFICIENT => do
      let ion ← parseGroup ts
      .ok { st with atoms := st.atoms ++ [ion] }
    | .SYMBOL => do
      let ion ← parseGroup ts
      let compound := st.compound ++ st.symbol
      let compound :=
        if 1 < ion.count then
          compound ++ '(' :: ion.symbol ++ ')' :: renderCount ion.count
        else compound ++ ion.symbol
      .ok { st with
        atoms := st.atoms ++ [.mk 1 st.symbol .ATOM .nil .UNDEFINED, ion],
        compound, symbol := [] }
    | .SUBSCRIPT => do
      let ion ← parseGroup ts
      let compound :=
        if 1 < ion.count then
          st.compound ++ '(' :: ion.symbol ++ ')' :: renderCount ion.count
        else st.compound ++ ion.symbol
      .ok { st with atoms := st.atoms ++ [ion], compound }

/-- `_parse_pass_two(tokens)` on a per-compound item group (top level,
`polyatomic = False`). -/
def parsePassTwo (items : List P1Item) : Except PyErr FormulaNode := do
  let st ← items.foldlM p2StepItem p2Init
  pure (p2Finish false st)

/-- The root of the parse: the original formula text plus one COMPOUND node
per `*`-separated part. -/
structure FormulaRoot where
  symbol : Str
  children : List FormulaNode

/-- `parse_formula` (uncaught exceptions from either stage propagate). -/
def parse_formula (ions : Str → Bool) (formula : Str) :
    Except PyErr FormulaRoot :=
  match tokenize ions formula with
  | .error e => .error e
  | .ok tokens =>
    match (parsePassOne tokens).mapM parsePassTwo with
    | .error e => .error e
    | .ok children => .ok ⟨formula, children⟩

/-! ### `FormulaRoot.flatten` -/

/-- `_flatten_compound(count, compound)`: atoms contribute
`node.count * count`; any other node recurses with *its own* count only (the
inherited `count` is not multiplied in). -/
def flattenCompound (count : Count) : NodeList → List (Count × Str)
  | .nil => []
  | .cons (.mk c sym ty ch _) ns =>
    (if ty = .ATOM then [(c * count, sym)] else flattenCompound c ch) ++
      flattenCompound count ns

/-- Look a key up in the insertion-ordered accumulator
(`atom_map.get(key, Count(0))`). -/
def dictGet (m : List (Str × Count)) (k : Str) : Count :=
  match m.find? (fun p => p.1 = k) with
  | some p => p.2
  | none => 0

/-- `atom_map[key] = value`: replace in place, else append (Python dicts keep
insertion order). -/
def dictSet (m : List (Str × Count)) (k : Str) (v : Count) : List (Str × Count) :=
  match m with
  | [] => [(k, v)]
  | (k', v') :: rest => if k' = k then (k, v) :: rest else (k', v') :: dictSet rest k v

/-- The `for atom in atoms` aggregation loop of `flatten`. -/
def buildMap (atoms : List (Count × Str)) (m : List (Str × Count)) :
    List (Str × Count) :=
  match atoms with
  | [] => m
  | (c, s) :: rest => buildMap rest (dictSet m s (dictGet m s + c))

/-- `FormulaRoot.flatten()`: per-compound flattening, then aggregation by
symbol, returned as `(count, symbol)` pairs in insertion order. -/
def FormulaRoot.flatten (r : FormulaRoot) : List (Count × Str) :=
  let atoms := r.children.flatMap (fun c => flattenCompound c.count c.children)
  (buildMap atoms []).map (fun p => (p.2, p.1))

/-! ### Spec-side flattening (claim C1)

The specification describes `flatten` as a depth-first walk that multiplies
each node's multiplicity into the multiplier inherited from its parent as it
descends, and adds `count × inherited_multiplier` at every ATOM leaf.  This
definition follows the spec's words, for comparison with `flattenCompound`
(which recurses with only the child's own count). -/

/-- Depth-first walk per the spec: descend with the accumulated multiplier. -/
def specWalk (mult : Count) : NodeList → List (Count × Str)
  | .nil => []
  | .cons (.mk c sym ty ch _) ns =>
    (if ty = .ATOM then [(c * mult, sym)] else specWalk (c * mult) ch) ++
      specWalk mult ns

/-- The per-element totals the spec prescribes for `flatten`: the same
symbol-keyed aggregation, over the multiplier-propagating walk. -/
def FormulaRoot.flattenSpec (r : FormulaRoot) : List (Count × Str) :=
  let atoms := r.children.flatMap (fun c => specWalk c.count c.children)
  (buildMap atoms []).map (fun p => (p.2, p.1))

/-! ### Node multiplicity collection (claim C9) -/

mutual
/-- All multiplicities in a node: its own count and its descendants'. -/
def nodeCounts : FormulaNode → List Count
  | .mk c _ _ ch _ => c :: nodeListCounts ch

def nodeListCounts : NodeList → List Count
  | .nil => []
  | .cons n ns => nodeCounts n ++ nodeListCounts ns
end

/-- All multiplicities in a parsed tree. -/
def rootCounts (r : FormulaRoot) : List Count :=
  r.children.flatMap nodeCounts

/-! ### Spec-side rounding (claim C7)

The spec describes rounding to `n` significant digits as: truncate the
concatenated digit string to `n` digits (zero-padding on the right when
shorter), apply round-half-up on the first dropped digit with carry
propagation through any run of trailing 9s, and when the carry passes the
leading digit the leading digit becomes 1 and the exponent increments by one;
re-normalize afterwards.  These definitions follow those words, for comparison
with `Scinot.roundTo`/`Scinot.roundLast`. -/

/-- Increment the least-significant digit of a reversed digit list with carry
propagation through 9s; the flag reports a carry out of the leading digit. -/
def carryIncRev : List ℕ → List ℕ × Bool
  | [] => ([], true)
  | d :: rest =>
    if d = 9 then
      let (r, c) := carryIncRev rest
      (0 :: r, c)
    else ((d + 1) :: rest, false)

/-- Rounding to `n` significant digits as the spec words it. -/
def Scinot.roundSpec (s : Scinot) (n : ℕ) : Scinot :=
  let ds := s.integral :: s.decimal
  match ds.drop n with
  | [] =>
    -- fewer than n digits: zero-pad on the right, re-normalize
    parseDigits (ds ++ List.replicate (n - ds.length) 0) s.exponent
  | dropped :: _ =>
    let kept := ds.take n
    if 5 ≤ dropped then
      let (incRev, carry) := carryIncRev kept.reverse
      if carry then
        -- the carry passed the leading digit: it becomes 1 (followed by
        -- zeros) and the exponent increments
        parseDigits (1 :: List.replicate (max (n - 1) 1) 0) (s.exponent + 1)
      else parseDigits incRev.reverse s.exponent
    else parseDigits kept s.exponent

/-- Digit-wise well-formedness of a `Scinot` as produced by `parse`: a single
decimal digit in the integral slot, decimal digits below 10, and a zero
integral only for the (fraction-free) zero value. -/
def Scinot.WF (s : Scinot) : Prop :=
  s.integral < 10 ∧ (∀ d ∈ s.decimal, d < 10) ∧ (s.integral = 0 → s.decimal = [])

instance (s : Scinot) : Decidable s.WF := by
  unfold Scinot.WF; infer_instance

/-! ### Canonical compounds and the round-trip (claim C8)

The claim is about re-parsing the canonical symbol string the parser
reconstructs for a compound node.  `CComp` abstracts the compounds whose
reconstruction is faithful: a list of atoms (uppercase-then-lowercase
symbols, positive counts), optionally followed by one trailing polyatomic
group.  `canonComp` is exactly the string `_parse_pass_two` reconstructs for
such a compound (element letters, a multiplicity only when it is not 1,
parentheses with a trailing multiplicity around a polyatomic group only when
its multiplicity exceeds 1). -/

structure CAtom where
  sym : Str
  cnt : ℕ
deriving DecidableEq, Repr

structure CPoly where
  cnt : ℕ
  atoms : List CAtom
deriving DecidableEq, Repr

structure CComp where
  atoms : List CAtom
  poly : Option CPoly
deriving DecidableEq, Repr

def canonAtom (a : CAtom) : Str :=
  a.sym ++ (if a.cnt = 1 then [] else natChars a.cnt)

def canonAtoms (l : List CAtom) : Str := (l.map canonAtom).flatten

def canonPoly (p : CPoly) : Str :=
  if 1 < p.cnt then '(' :: canonAtoms p.atoms ++ ')' :: natChars p.cnt
  else canonAtoms p.atoms

def canonComp (c : CComp) : Str :=
  canonAtoms c.atoms ++ (match c.poly with | none => [] | some p => canonPoly p)

/-- An element symbol: one uppercase letter followed by lowercase letters. -/
def symWF (s : Str) : Prop :=
  match s with
  | [] => False
  | u :: ls => u.isUpper = true ∧ ∀ ch ∈ ls, ch.isLower = true

def atomWF (a : CAtom) : Prop := symWF a.sym ∧ 1 ≤ a.cnt

def polyWF (p : CPoly) : Prop := 1 ≤ p.cnt ∧ p.atoms ≠ [] ∧ ∀ a ∈ p.atoms, atomWF a

def compWF (c : CComp) : Prop :=
  (∀ a ∈ c.atoms, atomWF a) ∧
  (match c.poly with
   | none => True
   | some p => polyWF p ∧ c.atoms ≠ [])

/-- The token run an atom contributes. -/
def toksAtom (a : CAtom) : List FormulaToken :=
  ⟨.SYMBOL, a.sym⟩ :: (if a.cnt = 1 then [] else [⟨.SUBSCRIPT, natChars a.cnt⟩])

def toksAtoms (l : List CAtom) : List FormulaToken := (l.map toksAtom).flatten

/-- The token the tokenizer would flush for a pending accumulated text: a
SYMBOL or SUBSCRIPT token, nothing in the other states. -/
def pendFlush (st : TokenState) (t : Str) : List FormulaToken :=
  match st with
  | .SYMBOL => [⟨.SYMBOL, t⟩]
  | .SUBSCRIPT => [⟨.SUBSCRIPT, t⟩]
  | _ => []

/-- A mid-run tokenizer pending pair: a nonempty element-symbol text in SYMBOL
state or a nonempty digit text in SUBSCRIPT state. -/
def PendOK (st : TokenState) (t : Str) : Prop :=
  t ≠ [] ∧
    ((st = .SYMBOL ∧ symWF t) ∨ (st = .SUBSCRIPT ∧ ∀ ch ∈ t, ch.isDigit = true))

/-- Entry points of an atom run: a fresh START state or a pending pair. -/
def EntryOK (st : TokenState) (t : Str) : Prop :=
  st = .START ∨ PendOK st t

/-- The token stream `tokenize` produces for a canonical compound. -/
def toksComp (c : CComp) : List FormulaToken :=
  match c.poly with
  | none => toksAtoms c.atoms
  | some p =>
    if 1 < p.cnt then
      toksAtoms c.atoms ++
        ⟨.POLYATOMIC_START, ['(']⟩ :: toksAtoms p.atoms ++
          ⟨.POLYATOMIC_END, [')']⟩ :: [⟨.SUBSCRIPT, natChars p.cnt⟩]
    else toksAtoms (c.atoms ++ p.atoms)

/-- Invariant threaded through the `_parse_pass_two` loop: the coefficient
and every multiplicity of every accumulated child are nonnegative. -/
def P2Nonneg (st : P2St) : Prop :=
  (0 : Frac) ≤ st.coefficient ∧
  ∀ nd ∈ st.atoms, ∀ c ∈ nodeCounts nd, (0 : Frac) ≤ c

/-- The token text the tokenizer is still accumulating for an atom after its
chunk has been consumed: the symbol itself when the multiplicity is 1
(written without a subscript), else the subscript digits. -/
def atomBody (a : CAtom) : List FormulaToken :=
  if a.cnt = 1 then [] else [⟨.SYMBOL, a.sym⟩]

def atomPendTok (a : CAtom) : Str :=
  if a.cnt = 1 then a.sym else natChars a.cnt

def atomPendSt (a : CAtom) : TokenState :=
  if a.cnt = 1 then .SYMBOL else .SUBSCRIPT

theorem fgcd_eq_gcd (f : ℕ) : ∀ m n : ℕ, m < f → fgcd f m n = Nat.gcd m n := by
  induction f with
  | zero => intro m n h; omega
  | succ f ih =>
    intro m n h
    rw [fgcd]
    by_cases hm : m = 0
    · simp [hm]
    · have hlt : n % m < m := Nat.mod_lt _ (Nat.pos_of_ne_zero hm)
      rw [if_neg hm, ih (n % m) m (by omega), Nat.gcd_rec m n]

namespace Frac

theorem sub_def (a b : Frac) :
    a - b = mk' (a.num * b.den - b.num * a.den) (a.den * b.den) := rfl

theorem le_def (a b : Frac) : a ≤ b ↔ a.num * b.den ≤ b.num * a.den := Iff.rfl

end Frac


theorem strip9Rev_cons_cons (a b : ℕ) (l : List ℕ) :
    Scinot.strip9Rev (a :: b :: l) =
      if a = 9 then
        ((Scinot.strip9Rev (b :: l)).1, (Scinot.strip9Rev (b :: l)).2 + 1)
      else (a :: b :: l, 0) := by
  rw [Scinot.strip9Rev]
  simp

theorem strip9Rev_all_nines :
    ∀ k : ℕ, 1 ≤ k → Scinot.strip9Rev (List.replicate k 9) = ([9], k - 1) := by
  intro k
  induction k with
  | zero => omega
  | succ k ih =>
    intro _
    match k, ih with
    | 0, _ => rfl
    | k + 1, ih =>
      show Scinot.strip9Rev (9 :: List.replicate (k + 1) 9) = _
      rw [show (9 :: List.replicate (k + 1) 9 : List ℕ) = 9 :: 9 :: List.replicate k 9 by
        rw [List.replicate_succ]]
      rw [strip9Rev_cons_cons]
      rw [show (9 :: List.replicate k 9 : List ℕ) = List.replicate (k + 1) 9 by
        rw [List.replicate_succ]]
      rw [ih (by omega)]
      simp

theorem carryIncRev_all_nines :
    ∀ k : ℕ, carryIncRev (List.replicate k 9) = (List.replicate k 0, true) := by
  intro k
  induction k with
  | zero => rfl
  | succ k ih =>
    simp only [List.replicate_succ]
    rw [carryIncRev, ih]
    simp

theorem strip9Rev_mixed (d : ℕ) (hd : d ≠ 9) (rest : List ℕ) :
    ∀ t : ℕ, Scinot.strip9Rev (List.replicate t 9 ++ d :: rest) = (d :: rest, t) := by
  intro t
  induction t with
  | zero =>
    cases rest with
    | nil => simp [Scinot.strip9Rev, hd]
    | cons r rs => simp [Scinot.strip9Rev, hd]
  | succ t ih =>
    rw [List.replicate_succ, List.cons_append]
    have hcons : ∃ x xs, List.replicate t 9 ++ d :: rest = x :: xs := by
      cases t with
      | zero => exact ⟨d, rest, rfl⟩
      | succ t => exact ⟨9, List.replicate t 9 ++ d :: rest, by
          rw [List.replicate_succ, List.cons_append]⟩
    rcases hcons with ⟨x, xs, hx⟩
    rw [hx, strip9Rev_cons_cons, ← hx, ih]
    simp

theorem carryIncRev_mixed (d : ℕ) (hd : d ≠ 9) (rest : List ℕ) :
    ∀ t : ℕ, carryIncRev (List.replicate t 9 ++ d :: rest) =
      (List.replicate t 0 ++ (d + 1) :: rest, false) := by
  intro t
  induction t with
  | zero => simp [carryIncRev, hd]
  | succ t ih =>
    simp only [List.replicate_succ, List.cons_append]
    rw [carryIncRev, ih]
    simp

/-- Every nonempty digit list is either all nines or a run of nines followed
by a first non-nine digit. -/
theorem nines_decomposition (r : List ℕ) (hr : r ≠ []) :
    (∃ k, 1 ≤ k ∧ r = List.replicate k 9) ∨
    (∃ t d rest, d ≠ 9 ∧ r = List.replicate t 9 ++ d :: rest) := by
  induction r with
  | nil => exact absurd rfl hr
  | cons x xs ih =>
    by_cases hx : x = 9
    · subst hx
      cases xs with
      | nil => exact Or.inl ⟨1, le_refl 1, rfl⟩
      | cons y ys =>
        rcases ih (by simp) with ⟨k, hk, hrep⟩ | ⟨t, d, rest, hd, heq⟩
        · exact Or.inl ⟨k + 1, by omega, by rw [List.replicate_succ, hrep]⟩
        · exact Or.inr ⟨t + 1, d, rest, hd, by
            rw [List.replicate_succ, List.cons_append, heq]⟩
    · exact Or.inr ⟨0, x, xs, hx, rfl⟩

theorem parseShift_pos (i : ℕ) (hi : i ≠ 0) (ds : List ℕ) (e : ℤ) :
    Scinot.parseShift i ds e = ⟨i, ds, e⟩ := by
  match i, hi with
  | i + 1, _ =>
    cases ds with
    | nil => rfl
    | cons d rest => rfl

/-- The branch of `_round_last` taken when the dropped digit is ≥ 5 equals
the spec's carry-propagating half-up increment of the kept digits. -/
theorem roundLast_body_eq (kept : List ℕ) (hk : kept ≠ []) (e : ℤ) (n : ℕ)
    (hlen : kept.length = n) :
    (if ((Scinot.strip9Rev kept.reverse).1.reverse.getLast?.getD 0) + 1 = 10 then
      Scinot.parseDigits
        (1 :: 0 :: List.replicate ((Scinot.strip9Rev kept.reverse).2 - 1) 0) (e + 1)
    else
      Scinot.parseDigits
        ((Scinot.strip9Rev kept.reverse).1.reverse.dropLast ++
          (((Scinot.strip9Rev kept.reverse).1.reverse.getLast?.getD 0) + 1) ::
          List.replicate (Scinot.strip9Rev kept.reverse).2 0) e) =
    (if (carryIncRev kept.reverse).2 then
      Scinot.parseDigits (1 :: List.replicate (max (n - 1) 1) 0) (e + 1)
    else Scinot.parseDigits (carryIncRev kept.reverse).1.reverse e) := by
  rcases nines_decomposition kept.reverse (by simpa using hk)
    with ⟨k, hk1, hrep⟩ | ⟨t, d, rest, hd, heq⟩
  · have hklen : n = k := by
      have h1 := congrArg List.length hrep
      simp at h1
      omega
    rw [hrep, strip9Rev_all_nines k hk1, carryIncRev_all_nines k]
    rw [if_pos (show (([9], k - 1) : List ℕ × ℕ).1.reverse.getLast?.getD 0 + 1 = 10
      from rfl)]
    rw [if_pos (show ((List.replicate k 0, true) : List ℕ × Bool).2 = true from rfl)]
    subst hklen
    congr 1
    match n, hk1 with
    | 1, _ => rfl
    | m + 2, _ =>
      show (1 : ℕ) :: 0 :: List.replicate (m + 2 - 1 - 1) 0 = _
      have h2 : m + 2 - 1 - 1 = m := by omega
      have h3 : max (m + 2 - 1) 1 = m + 1 := by omega
      rw [h2, h3, List.replicate_succ]
  · rw [heq, strip9Rev_mixed d hd rest t, carryIncRev_mixed d hd rest t]
    have hgl : (((d :: rest, t) : List ℕ × ℕ)).1.reverse.getLast?.getD 0 = d := by
      show (d :: rest).reverse.getLast?.getD 0 = d
      rw [List.getLast?_reverse]
      rfl
    rw [hgl]
    rw [if_neg (show ¬ d + 1 = 10 by omega)]
    rw [if_neg (show ¬ ((List.replicate t 0 ++ (d + 1) :: rest, false) :
      List ℕ × Bool).2 = true from Bool.false_ne_true)]
    congr 1
    show (d :: rest).reverse.dropLast ++ (d + 1) :: List.replicate t 0 =
      (List.replicate t 0 ++ (d + 1) :: rest).reverse
    rw [List.reverse_cons, List.dropLast_concat, List.reverse_append,
      List.reverse_replicate, List.reverse_cons, List.append_assoc]
    simp

/-- Claim C7 (confirmed): `Scinot` rounding to `n` significant digits
truncates the digit string to `n` digits (zero-padding when shorter), applies
round-half-up on the first dropped digit with carry propagation through
trailing 9s, and a carry past the leading digit yields leading digit 1 with
the exponent incremented; in particular `9.99x10^0` rounded to 2 digits is
`1.0x10^1`.  (Stated for `n ≥ 1` — `sig_digits` is always ≥ 1 — and for
parse-normalized values, whose integral digit is zero only for the
fraction-free zero.) -/
theorem scinot_round_halfup_carry :
    (∀ (s : Scinot) (n : ℕ), 1 ≤ n → (s.integral = 0 → s.decimal = []) →
      s.roundTo n = s.roundSpec n) ∧
    Scinot.roundTo ⟨9, [9, 9], 0⟩ 2 = ⟨1, [0], 1⟩ := by
  refine ⟨?_, rfl⟩
  rintro ⟨i, dec, e⟩ n hn h0
  match n, hn with
  | m + 1, _ =>
  simp only [Scinot.roundTo, Scinot.roundSpec, List.drop_succ_cons]
  rcases hD : dec.drop m with _ | ⟨dropped, rest⟩
  · -- at most m fraction digits: truncation is a no-op, only padding happens
    have hdlen : dec.length ≤ m := List.drop_eq_nil_iff.mp hD
    have htake : (i :: dec).take (m + 1 + 1) = i :: dec :=
      List.take_of_length_le (by simp; omega)
    rw [htake]
    simp only [List.length_cons]
    rw [if_pos (by omega)]
    rcases Nat.lt_or_ge (dec.length + 1) (m + 1) with hlt | hge
    · rw [if_pos hlt]
    · have : dec.length + 1 = m + 1 := by omega
      rw [if_neg (by omega), this, Nat.sub_self]
      simp
  · -- more than m fraction digits: a digit is dropped and rounding happens
    have hdlen : m < dec.length := by
      by_contra hcon
      rw [List.drop_eq_nil_iff.mpr (by omega)] at hD
      exact List.noConfusion hD
    have h0' : i = 0 → dec = [] := h0
    have hi : i ≠ 0 := by
      intro hi0
      rw [h0' hi0] at hD
      simp at hD
    have htake1 : dec.take (m + 1) = dec.take m ++ [dropped] := by
      rw [List.take_add, hD]
      rfl
    have htake : (i :: dec).take (m + 1 + 1) = (i :: dec.take m) ++ [dropped] := by
      rw [List.take_succ_cons, htake1]
      rfl
    rw [htake]
    have hlen : ((i :: dec.take m) ++ [dropped]).length = m + 2 := by
      simp
      omega
    rw [hlen]
    rw [if_neg (by omega), if_neg (by omega)]
    -- the intermediate Scinot built from the truncated digits
    have hparse : Scinot.parseDigits ((i :: dec.take m) ++ [dropped]) e =
        ⟨i, dec.take m ++ [dropped], e⟩ := by
      rw [List.cons_append, Scinot.parseDigits, parseShift_pos i hi]
    rw [hparse]
    simp only [Scinot.roundLast]
    rw [show (⟨i, dec.take m ++ [dropped], e⟩ : Scinot).integral ::
        (⟨i, dec.take m ++ [dropped], e⟩ : Scinot).decimal =
        (i :: dec.take m) ++ [dropped] by rw [List.cons_append]]
    rw [List.getLast?_concat, List.dropLast_concat]
    simp only [List.take_succ_cons]
    by_cases h5 : 5 ≤ dropped
    · rw [if_pos h5, if_pos h5]
      have hbody := roundLast_body_eq (i :: dec.take m) (by simp) e (m + 1)
        (by simp; omega)
      exact hbody
    · rw [if_neg h5, if_neg h5]

/-- Claim C7, witness: the equivalence applied at `9.99x10^0`, `n = 2`. -/
theorem scinot_round_halfup_carry_witness :
    Scinot.roundTo ⟨9, [9, 9], 0⟩ 2 = Scinot.roundSpec ⟨9, [9, 9], 0⟩ 2 :=
  scinot_round_halfup_carry.1 ⟨9, [9, 9], 0⟩ 2 (by decide) (by intro h; cases h)

/-- Claim C1 (code bug): the spec requires `flatten` to multiply each node's
multiplicity by the parent's accumulated multiplier while descending, but
`_flatten_compound` recurses into a non-ATOM child with only the child's own
count, dropping the inherited multiplier.  On `[2]Mg(OH)2` (a compound of
multiplicity 2 containing the polyatomic ion `(OH)2`) the code yields
`O ↦ 2, H ↦ 2` where the spec's walk yields `O ↦ 4, H ↦ 4`. -/
theorem flatten_drops_nested_multiplier :
    (parse_formula specIons "[2]Mg(OH)2".toList).map FormulaRoot.flatten =
      .ok [(2, "Mg".toList), (2, "O".toList), (2, "H".toList)] ∧
    (parse_formula specIons "[2]Mg(OH)2".toList).map FormulaRoot.flattenSpec =
      .ok [(2, "Mg".toList), (4, "O".toList), (4, "H".toList)] := by
  constructor <;> rfl

/-- Claim C2, counterexample: `parse_formula("CuSO4*5H2O")` raises
`TokenizeError` — a bare `5` after `*` reaches the START state, which accepts
only a letter, `[` or `(` — so the combined hydrate does *not* parse and
cannot flatten to the enumerated totals. -/
theorem hydrate_bare_coefficient_raises :
    (parse_formula specIons "CuSO4*5H2O".toList).map FormulaRoot.flatten =
      .error (.tokenizeError "invalid character") := by rfl

/-- Claim C2 (amended): the three plain flatten examples hold
(`H2O ↦ {H:2, O:1}`, `Mg(OH)2 ↦ {Mg:1, O:2, H:2}`,
`Fe2(SO4)3 ↦ {Fe:2, S:3, O:12}`), while `CuSO4*5H2O` raises `TokenizeError`;
the hydrate parses only with a bracketed coefficient, `CuSO4*[5]H2O`, and then
yields the claimed totals `{Cu:1, S:1, O:9, H:10}`. -/
theorem flatten_enumerated_inputs :
    (parse_formula specIons "H2O".toList).map FormulaRoot.flatten =
      .ok [(2, "H".toList), (1, "O".toList)] ∧
    (parse_formula specIons "Mg(OH)2".toList).map FormulaRoot.flatten =
      .ok [(1, "Mg".toList), (2, "O".toList), (2, "H".toList)] ∧
    (parse_formula specIons "Fe2(SO4)3".toList).map FormulaRoot.flatten =
      .ok [(2, "Fe".toList), (3, "S".toList), (12, "O".toList)] ∧
    (parse_formula specIons "CuSO4*5H2O".toList).map FormulaRoot.flatten =
      .error (.tokenizeError "invalid character") ∧
    (parse_formula specIons "CuSO4*[5]H2O".toList).map FormulaRoot.flatten =
      .ok [(1, "Cu".toList), (1, "S".toList), (9, "O".toList), (10, "H".toList)] := by
  refine ⟨?_, ?_, ?_, ?_, ?_⟩ <;> rfl

/-- Claim C3 (code bug): with `CO3` in the ion table, tokenizing `Na2CO3`
does insert POLYATOMIC_START/END tokens, but the start bracket is inserted at
the *character* position of the window (token index 3) instead of before the
`C` token, so only the `O3` span is bracketed and `C` is left outside; with
`CO3` absent the stream is the three plain atoms with no grouping tokens. -/
theorem na2co3_implicit_bracketing :
    specIons "CO3".toList = true ∧
    tokenize specIons "Na2CO3".toList = .ok
      [⟨.SYMBOL, "Na".toList⟩, ⟨.SUBSCRIPT, "2".toList⟩, ⟨.SYMBOL, "C".toList⟩,
       ⟨.POLYATOMIC_START, "(".toList⟩, ⟨.SYMBOL, "O".toList⟩,
       ⟨.SUBSCRIPT, "3".toList⟩, ⟨.POLYATOMIC_END, ")".toList⟩] ∧
    tokenize emptyIons "Na2CO3".toList = .ok
      [⟨.SYMBOL, "Na".toList⟩, ⟨.SUBSCRIPT, "2".toList⟩, ⟨.SYMBOL, "C".toList⟩,
       ⟨.SYMBOL, "O".toList⟩, ⟨.SUBSCRIPT, "3".toList⟩] := by
  refine ⟨?_, ?_, ?_⟩ <;> rfl

/-- Claim C4, counterexample: `tokenize("(OH")` does *not* raise — the
pending `H` is in SYMBOL state at end of input, so it is flushed and the
unterminated group is returned as is (the claim asserts a `TokenizeError`). -/
theorem unterminated_group_tokenizes :
    tokenize emptyIons "(OH".toList = .ok
      [⟨.POLYATOMIC_START, "(".toList⟩, ⟨.SYMBOL, "O".toList⟩,
       ⟨.SYMBOL, "H".toList⟩] := by rfl

/-- Claim C4 (amended): `tokenize("2H")` raises `TokenizeError` (a bare
leading digit is rejected in START state), but `tokenize("(OH")` succeeds,
returning the unterminated group `[(, O, H]` rather than raising. -/
theorem bare_coefficient_raises_unterminated_group_accepted :
    tokenize emptyIons "2H".toList = .error (.tokenizeError "invalid character") ∧
    tokenize emptyIons "(OH".toList = .ok
      [⟨.POLYATOMIC_START, "(".toList⟩, ⟨.SYMBOL, "O".toList⟩,
       ⟨.SYMBOL, "H".toList⟩] := by
  constructor <;> rfl

/-- Claim C10 (confirmed): `parse_formula("")` succeeds and returns a root
whose children are exactly one COMPOUND node with multiplicity 1, empty
symbol, undefined physical state and no children; its `flatten()` is the
empty mapping. -/
theorem parse_empty_formula :
    parse_formula specIons [] =
      .ok ⟨[], [.mk 1 [] .COMPOUND .nil .UNDEFINED]⟩ ∧
    (parse_formula specIons []).map FormulaRoot.flatten = .ok [] := by
  constructor <;> rfl

/-! Helper lemmas for claim C9: every multiplicity the parser constructs is
nonnegative. -/

theorem Frac.zero_le_iff (f : Frac) : (0 : Frac) ≤ f ↔ 0 ≤ f.num := by
  show (0 : ℤ) * f.den ≤ f.num * (1 : ℕ) ↔ _
  simp

theorem Frac.mk'_nonneg (n : ℤ) (d : ℕ) (h : 0 ≤ n) : (0 : Frac) ≤ Frac.mk' n d := by
  rw [Frac.zero_le_iff, Frac.mk']
  by_cases hd : d = 0
  · simp [hd]
  · rw [if_neg hd]
    exact Int.ediv_nonneg h (by positivity)

theorem Frac.nonneg_mul {a b : Frac} (ha : (0 : Frac) ≤ a) (hb : (0 : Frac) ≤ b) :
    (0 : Frac) ≤ a * b := by
  rw [Frac.zero_le_iff] at ha hb
  exact Frac.mk'_nonneg _ _ (mul_nonneg ha hb)

theorem Frac.nonneg_add {a b : Frac} (ha : (0 : Frac) ≤ a) (hb : (0 : Frac) ≤ b) :
    (0 : Frac) ≤ a + b := by
  rw [Frac.zero_le_iff] at ha hb
  exact Frac.mk'_nonneg _ _ (by positivity)

theorem decimalOfString_nonneg (s : Str) (q : Frac) (h : decimalOfString s = some q) :
    (0 : Frac) ≤ q := by
  unfold decimalOfString at h
  split at h
  · cases h
  · split at h
    · cases h
    · split at h
      · rw [Option.some_inj] at h
        exact h ▸ Frac.mk'_nonneg _ _ (by positivity)
      · cases h

theorem foldlM_except_inv {α β : Type} {P : β → Prop} {f : β → α → Except PyErr β}
    (hf : ∀ st x st', P st → f st x = .ok st' → P st') :
    ∀ (l : List α) (st st' : β), P st → l.foldlM f st = .ok st' → P st' := by
  intro l
  induction l with
  | nil =>
    intro st st' h heq
    cases heq
    exact h
  | cons x xs ih =>
    intro st st' h heq
    rw [List.foldlM_cons] at heq
    cases hfx : f st x with
    | error e => rw [hfx] at heq; cases heq
    | ok s1 =>
      rw [hfx] at heq
      exact ih s1 st' (hf st x s1 h hfx) heq

theorem atoms_append_atom_nonneg (l : List FormulaNode) (q : Frac) (sym : Str)
    (hl : ∀ nd ∈ l, ∀ c ∈ nodeCounts nd, (0 : Frac) ≤ c) (hq : (0 : Frac) ≤ q) :
    ∀ nd ∈ l ++ [FormulaNode.mk q sym .ATOM .nil .UNDEFINED],
      ∀ c ∈ nodeCounts nd, (0 : Frac) ≤ c := by
  intro nd hnd c hcc
  rcases List.mem_append.mp hnd with hm | hm
  · exact hl nd hm c hcc
  · rcases List.mem_singleton.mp hm with rfl
    rcases List.mem_cons.mp hcc with rfl | hfalse
    · exact hq
    · cases hfalse

theorem p2StepTok_nonneg (poly : Bool) (st : P2St) (t : FormulaToken) (st' : P2St)
    (h : P2Nonneg st) (heq : p2StepTok poly st t = .ok st') : P2Nonneg st' := by
  obtain ⟨hc, ha⟩ := h
  rcases st with ⟨atoms, state, coefficient, symbol, compound, cstate⟩
  rcases t with ⟨ttype, tvalue⟩
  cases state <;> cases ttype <;> simp only [p2StepTok] at heq
  all_goals try exact Except.noConfusion heq
  case START.SYMBOL =>
    cases heq
    exact ⟨hc, ha⟩
  case START.COEFFICIENT =>
    cases hq : decimalOfString tvalue with
    | none => rw [hq] at heq; exact Except.noConfusion heq
    | some q =>
      rw [hq] at heq
      cases heq
      exact ⟨decimalOfString_nonneg _ _ hq, ha⟩
  case START.SUBSCRIPT =>
    cases poly with
    | false => simp only [Bool.false_eq_true, if_false] at heq
               exact Except.noConfusion heq
    | true =>
      simp only [if_true] at heq
      cases hq : decimalOfString tvalue with
      | none => rw [hq] at heq; exact Except.noConfusion heq
      | some q =>
        rw [hq] at heq
        cases heq
        exact ⟨decimalOfString_nonneg _ _ hq, ha⟩
  case START.STATE =>
    cases heq
    exact ⟨hc, ha⟩
  case COEFFICIENT.SYMBOL =>
    cases heq
    exact ⟨hc, ha⟩
  case SYMBOL.SYMBOL =>
    cases heq
    exact ⟨hc, atoms_append_atom_nonneg _ _ _ ha (by decide)⟩
  case SYMBOL.SUBSCRIPT =>
    cases hq : decimalOfString tvalue with
    | none => rw [hq] at heq; exact Except.noConfusion heq
    | some q =>
      rw [hq] at heq
      cases heq
      exact ⟨hc, atoms_append_atom_nonneg _ _ _ ha (decimalOfString_nonneg _ _ hq)⟩
  case SUBSCRIPT.SYMBOL =>
    cases heq
    exact ⟨hc, ha⟩

theorem nodeListCounts_ofList_nonneg (l : List FormulaNode)
    (hall : ∀ nd ∈ l, ∀ c ∈ nodeCounts nd, (0 : Frac) ≤ c) :
    ∀ c ∈ nodeListCounts (NodeList.ofList l), (0 : Frac) ≤ c := by
  induction l with
  | nil => intro c hcc; cases hcc
  | cons nd nds ih =>
    intro c hcc
    rw [NodeList.ofList, nodeListCounts] at hcc
    rcases List.mem_append.mp hcc with hm | hm
    · exact hall nd (by simp) c hm
    · exact ih (fun x hx => hall x (by simp [hx])) c hm

theorem p2Finish_nonneg (poly : Bool) (st : P2St) (h : P2Nonneg st) :
    ∀ c ∈ nodeCounts (p2Finish poly st), (0 : Frac) ≤ c := by
  obtain ⟨hc, ha⟩ := h
  by_cases hcond : st.symbol ≠ [] ∧ st.state = .SYMBOL
  · intro c hcc
    unfold p2Finish at hcc
    rw [if_pos hcond] at hcc
    cases poly <;>
      simp only [Bool.false_eq_true, if_true, if_false] at hcc <;>
      rw [nodeCounts] at hcc <;>
      rcases List.mem_cons.mp hcc with rfl | hm
    · exact hc
    · exact nodeListCounts_ofList_nonneg _
        (atoms_append_atom_nonneg _ _ _ ha (by decide)) c hm
    · exact hc
    · exact nodeListCounts_ofList_nonneg _
        (atoms_append_atom_nonneg _ _ _ ha (by decide)) c hm
  · intro c hcc
    unfold p2Finish at hcc
    rw [if_neg hcond] at hcc
    cases poly <;>
      simp only [Bool.false_eq_true, if_true, if_false] at hcc <;>
      rw [nodeCounts] at hcc <;>
      rcases List.mem_cons.mp hcc with rfl | hm
    · exact hc
    · exact nodeListCounts_ofList_nonneg _ ha c hm
    · exact hc
    · exact nodeListCounts_ofList_nonneg _ ha c hm

theorem p2Init_nonneg : P2Nonneg p2Init :=
  ⟨by decide, fun nd h => absurd h (List.not_mem_nil nd)⟩

theorem parseGroup_nonneg (ts : List FormulaToken) (nd : FormulaNode)
    (heq : parseGroup ts = .ok nd) : ∀ c ∈ nodeCounts nd, (0 : Frac) ≤ c := by
  unfold parseGroup at heq
  cases hst : ts.foldlM (p2StepTok true) p2Init with
  | error e => rw [hst] at heq; cases heq
  | ok st =>
    rw [hst] at heq
    cases heq
    exact p2Finish_nonneg true st
      (foldlM_except_inv (fun a x b => p2StepTok_nonneg true a x b) ts p2Init st
        p2Init_nonneg hst)

theorem atoms_append_node_nonneg (l : List FormulaNode) (nd : FormulaNode)
    (hl : ∀ x ∈ l, ∀ c ∈ nodeCounts x, (0 : Frac) ≤ c)
    (hnd : ∀ c ∈ nodeCounts nd, (0 : Frac) ≤ c) :
    ∀ x ∈ l ++ [nd], ∀ c ∈ nodeCounts x, (0 : Frac) ≤ c := by
  intro x hx c hcc
  rcases List.mem_append.mp hx with hm | hm
  · exact hl x hm c hcc
  · rcases List.mem_singleton.mp hm with rfl
    exact hnd c hcc

theorem p2StepItem_nonneg (st : P2St) (it : P1Item) (st' : P2St)
    (h : P2Nonneg st) (heq : p2StepItem st it = .ok st') : P2Nonneg st' := by
  cases it with
  | tok t => exact p2StepTok_nonneg false st t st' h heq
  | group ts =>
    obtain ⟨hc, ha⟩ := h
    rcases st with ⟨atoms, state, coefficient, symbol, compound, cstate⟩
    cases hion : parseGroup ts with
    | error e =>
      cases state <;> simp only [p2StepItem, hion] at heq <;> cases heq
    | ok ion =>
      have hionc := parseGroup_nonneg _ _ hion
      cases state
      case START =>
        simp only [p2StepItem, hion] at heq
        cases heq
        exact ⟨hc, atoms_append_node_nonneg _ _ ha hionc⟩
      case COEFFICIENT =>
        simp only [p2StepItem, hion] at heq
        cases heq
        exact ⟨hc, atoms_append_node_nonneg _ _ ha hionc⟩
      case SYMBOL =>
        simp only [p2StepItem, hion] at heq
        cases heq
        refine ⟨hc, ?_⟩
        intro x hx c hcc
        rcases List.mem_append.mp hx with hm | hm
        · exact ha x hm c hcc
        · rcases List.mem_cons.mp hm with rfl | hm2
          · rcases List.mem_cons.mp hcc with rfl | hfalse
            · decide
            · cases hfalse
          · rcases List.mem_singleton.mp hm2 with rfl
            exact hionc c hcc
      case SUBSCRIPT =>
        simp only [p2StepItem, hion] at heq
        cases heq
        exact ⟨hc, atoms_append_node_nonneg _ _ ha hionc⟩

theorem parsePassTwo_nonneg (items : List P1Item) (nd : FormulaNode)
    (heq : parsePassTwo items = .ok nd) : ∀ c ∈ nodeCounts nd, (0 : Frac) ≤ c := by
  unfold parsePassTwo at heq
  cases hst : items.foldlM p2StepItem p2Init with
  | error e => rw [hst] at heq; cases heq
  | ok st =>
    rw [hst] at heq
    cases heq
    exact p2Finish_nonneg false st
      (foldlM_except_inv (fun a x b => p2StepItem_nonneg a x b) items p2Init st
        p2Init_nonneg hst)

theorem mapM_loop_except {α β : Type} {Q : β → Prop} {f : α → Except PyErr β}
    (hf : ∀ a b, f a = .ok b → Q b) :
    ∀ (l : List α) (acc rs : List β), (∀ r ∈ acc, Q r) →
      List.mapM.loop f l acc = .ok rs → ∀ r ∈ rs, Q r := by
  intro l
  induction l with
  | nil =>
    intro acc rs hacc heq r hr
    rw [List.mapM.loop] at heq
    cases heq
    exact hacc r (List.mem_reverse.mp hr)
  | cons a as ih =>
    intro acc rs hacc heq r hr
    rw [List.mapM.loop] at heq
    cases hfa : f a with
    | error e => rw [hfa] at heq; cases heq
    | ok b =>
      rw [hfa] at heq
      refine ih (b :: acc) rs ?_ heq r hr
      intro x hx
      rcases List.mem_cons.mp hx with rfl | hm
      · exact hf a x hfa
      · exact hacc x hm

theorem mapM_except_forall {α β : Type} {Q : β → Prop} {f : α → Except PyErr β}
    (hf : ∀ a b, f a = .ok b → Q b) (l : List α) (rs : List β)
    (heq : l.mapM f = .ok rs) : ∀ r ∈ rs, Q r :=
  mapM_loop_except hf l [] rs (fun r hr => absurd hr (List.not_mem_nil r)) heq

theorem nodeCounts_eq (nd : FormulaNode) :
    nodeCounts nd = nd.count :: nodeListCounts nd.children := by
  cases nd
  rfl

theorem flattenCompound_nonneg : ∀ (count : Count), (0 : Frac) ≤ count →
    ∀ (ns : NodeList), (∀ c ∈ nodeListCounts ns, (0 : Frac) ≤ c) →
    ∀ p ∈ flattenCompound count ns, (0 : Frac) ≤ p.1
  | _, _, .nil, _, p, hp => absurd hp (by rw [flattenCompound]; exact List.not_mem_nil p)
  | count, hcount, .cons (.mk c sym ty ch cst) ns, hall, p, hp => by
    rw [flattenCompound] at hp
    have hcnt : (0 : Frac) ≤ c := hall c (by rw [nodeListCounts, nodeCounts]; simp)
    rcases List.mem_append.mp hp with hm | hm
    · revert hm
      split
      · intro hm
        rcases List.mem_singleton.mp hm with rfl
        exact Frac.nonneg_mul hcnt hcount
      · intro hm
        exact flattenCompound_nonneg c hcnt ch
          (fun x hx => hall x (by rw [nodeListCounts, nodeCounts]; simp [hx])) p hm
    · exact flattenCompound_nonneg count hcount ns
        (fun x hx => hall x (by rw [nodeListCounts]; simp [hx])) p hm

theorem dictGet_nonneg (m : List (Str × Count)) (hm : ∀ p ∈ m, (0 : Frac) ≤ p.2)
    (k : Str) : (0 : Frac) ≤ dictGet m k := by
  unfold dictGet
  cases hf : m.find? (fun p => p.1 = k) with
  | none => decide
  | some p => exact hm p (List.mem_of_find?_eq_some hf)

theorem dictSet_nonneg (k : Str) (v : Count) (hv : (0 : Frac) ≤ v) :
    ∀ (m : List (Str × Count)), (∀ p ∈ m, (0 : Frac) ≤ p.2) →
    ∀ p ∈ dictSet m k v, (0 : Frac) ≤ p.2 := by
  intro m
  induction m with
  | nil =>
    intro _ p hp
    rw [dictSet] at hp
    rcases List.mem_singleton.mp hp with rfl
    exact hv
  | cons q m ih =>
    intro hm p hp
    rw [dictSet] at hp
    revert hp
    split
    · intro hp
      rcases List.mem_cons.mp hp with rfl | hm2
      · exact hv
      · exact hm p (by simp [hm2])
    · intro hp
      rcases List.mem_cons.mp hp with rfl | hm2
      · exact hm q (by simp)
      · exact ih (fun x hx => hm x (by simp [hx])) p hm2

theorem buildMap_nonneg : ∀ (atoms : List (Count × Str)) (m : List (Str × Count)),
    (∀ p ∈ atoms, (0 : Frac) ≤ p.1) → (∀ p ∈ m, (0 : Frac) ≤ p.2) →
    ∀ p ∈ buildMap atoms m, (0 : Frac) ≤ p.2 := by
  intro atoms
  induction atoms with
  | nil =>
    intro m _ hm p hp
    rw [buildMap] at hp
    exact hm p hp
  | cons a rest ih =>
    intro m hatoms hm p hp
    rcases a with ⟨c, sym⟩
    rw [buildMap] at hp
    refine ih _ (fun x hx => hatoms x (by simp [hx])) ?_ p hp
    exact dictSet_nonneg sym _
      (Frac.nonneg_add (dictGet_nonneg m hm sym) (hatoms (c, sym) (by simp))) m hm

/-- Claim C9, counterexample: `parse_formula("H0")` is accepted by the
grammar, yet the `H` atom's multiplicity is the ExactCount 0 — not strictly
positive — and `flatten` maps `H` to 0. -/
theorem parse_h0_zero_count :
    (parse_formula specIons "H0".toList).map
      (fun r => (rootCounts r, r.flatten)) =
      .ok ([1, 0], [(0, "H".toList)]) := rfl

/-- Claim C9 (amended): for every formula string the tokenizer and both
parser passes accept, every node multiplicity in the resulting tree is
*nonnegative*, and `flatten` never maps a symbol to a negative count (strict
positivity fails: zero subscripts such as `H0` are accepted). -/
theorem parse_counts_nonneg :
    ∀ (ions : Str → Bool) (formula : Str) (root : FormulaRoot),
      parse_formula ions formula = .ok root →
      (∀ c ∈ rootCounts root, (0 : Frac) ≤ c) ∧
      (∀ p ∈ root.flatten, (0 : Frac) ≤ p.1) := by
  intro ions formula root heq
  unfold parse_formula at heq
  cases htok : tokenize ions formula with
  | error e => simp only [htok] at heq; cases heq
  | ok tokens =>
    simp only [htok] at heq
    cases hch : (parsePassOne tokens).mapM parsePassTwo with
    | error e => simp only [hch] at heq; cases heq
    | ok children =>
      simp only [hch, Except.ok.injEq] at heq
      cases heq
      have hnodes : ∀ nd ∈ children, ∀ c ∈ nodeCounts nd, (0 : Frac) ≤ c :=
        mapM_except_forall (fun items nd h => parsePassTwo_nonneg items nd h) _ _ hch
      constructor
      · intro c hcc
        rw [rootCounts] at hcc
        rcases List.mem_flatMap.mp hcc with ⟨nd, hnd, hcm⟩
        exact hnodes nd hnd c hcm
      · intro p hp
        rw [FormulaRoot.flatten] at hp
        rcases List.mem_map.mp hp with ⟨q, hq, rfl⟩
        refine buildMap_nonneg _ [] ?_ (fun x hx => absurd hx (List.not_mem_nil x)) q hq
        intro x hx
        rcases List.mem_flatMap.mp hx with ⟨nd, hnd, hxm⟩
        have h1 := hnodes nd hnd
        rw [nodeCounts_eq] at h1
        exact flattenCompound_nonneg nd.count (h1 _ (by simp)) nd.children
          (fun y hy => h1 y (by simp [hy])) x hxm

/-- Claim C9, witness: the theorem applied to the successful parse of
`H2O`. -/
theorem parse_counts_nonneg_witness :
    (∀ c ∈ rootCounts ⟨"H2O".toList,
        [.mk 1 "H2O".toList .COMPOUND
          (.cons (.mk 2 "H".toList .ATOM .nil .UNDEFINED)
            (.cons (.mk 1 "O".toList .ATOM .nil .UNDEFINED) .nil)) .UNDEFINED]⟩,
      (0 : Frac) ≤ c) ∧
    (∀ p ∈ FormulaRoot.flatten ⟨"H2O".toList,
        [.mk 1 "H2O".toList .COMPOUND
          (.cons (.mk 2 "H".toList .ATOM .nil .UNDEFINED)
            (.cons (.mk 1 "O".toList .ATOM .nil .UNDEFINED) .nil)) .UNDEFINED]⟩,
      (0 : Frac) ≤ p.1) :=
  parse_counts_nonneg specIons "H2O".toList _ rfl

/-! ### Round-trip simulation lemmas (claim C8) -/

theorem uint32_le_toNat {a b : UInt32} (h : a ≤ b) : a.toNat ≤ b.toNat := by
  rw [UInt32.le_def] at h
  have h' := BitVec.le_def.mp h
  simpa using h'

theorem upper_facts (c : Char) (h : c.isUpper = true) :
    c.isAlpha = true ∧ c.isDigit = false ∧ c ≠ '[' ∧ c ≠ '(' ∧ c ≠ ')' ∧
      c ≠ '*' ∧ c ≠ '.' := by
  have hb := h
  simp only [Char.isUpper, ge_iff_le, Bool.and_eq_true, decide_eq_true_eq] at hb
  have h1' := uint32_le_toNat hb.1
  have h2' := uint32_le_toNat hb.2
  have e65 : (65 : UInt32).toNat = 65 := rfl
  have e90 : (90 : UInt32).toNat = 90 := rfl
  rw [e65] at h1'
  rw [e90] at h2'
  refine ⟨by simp [Char.isAlpha, h], ?_, ?_, ?_, ?_, ?_, ?_⟩
  · rw [Bool.eq_false_iff]
    intro hcon
    simp only [Char.isDigit, ge_iff_le, Bool.and_eq_true, decide_eq_true_eq] at hcon
    have h3 := uint32_le_toNat hcon.2
    have e57 : (57 : UInt32).toNat = 57 := rfl
    rw [e57] at h3
    omega
  all_goals
    intro hc
    subst hc
    exact absurd h (by decide)

theorem lower_facts (c : Char) (h : c.isLower = true) :
    c.isAlpha = true ∧ c.isUpper = false ∧ c.isDigit = false := by
  have hb := h
  simp only [Char.isLower, ge_iff_le, Bool.and_eq_true, decide_eq_true_eq] at hb
  have h1' := uint32_le_toNat hb.1
  have e97 : (97 : UInt32).toNat = 97 := rfl
  rw [e97] at h1'
  refine ⟨by simp [Char.isAlpha, h], ?_, ?_⟩
  · rw [Bool.eq_false_iff]
    intro hcon
    simp only [Char.isUpper, ge_iff_le, Bool.and_eq_true, decide_eq_true_eq] at hcon
    have h3 := uint32_le_toNat hcon.2
    have e90 : (90 : UInt32).toNat = 90 := rfl
    rw [e90] at h3
    omega
  · rw [Bool.eq_false_iff]
    intro hcon
    simp only [Char.isDigit, ge_iff_le, Bool.and_eq_true, decide_eq_true_eq] at hcon
    have h3 := uint32_le_toNat hcon.2
    have e57 : (57 : UInt32).toNat = 57 := rfl
    rw [e57] at h3
    omega

theorem digit_facts (c : Char) (h : c.isDigit = true) :
    c.isAlpha = false ∧ c ≠ '.' ∧ c ≠ '*' ∧ c ≠ '(' ∧ c ≠ ')' := by
  have hb := h
  simp only [Char.isDigit, ge_iff_le, Bool.and_eq_true, decide_eq_true_eq] at hb
  have h2' := uint32_le_toNat hb.2
  have e57 : (57 : UInt32).toNat = 57 := rfl
  rw [e57] at h2'
  refine ⟨?_, ?_, ?_, ?_, ?_⟩
  · rw [Bool.eq_false_iff]
    intro hcon
    simp only [Char.isAlpha, Char.isUpper, Char.isLower, ge_iff_le,
      Bool.or_eq_true, Bool.and_eq_true, decide_eq_true_eq] at hcon
    rcases hcon with ⟨hc1, _⟩ | ⟨hc1, _⟩
    · have h3 := uint32_le_toNat hc1
      have e65 : (65 : UInt32).toNat = 65 := rfl
      rw [e65] at h3
      omega
    · have h3 := uint32_le_toNat hc1
      have e97 : (97 : UInt32).toNat = 97 := rfl
      rw [e97] at h3
      omega
  all_goals
    intro hc
    subst hc
    exact absurd h (by decide)

theorem windowAdjust_core (tk : List FormulaToken) (t : Str) (s : TokenState)
    (p : Bool) (sp : List ℤ) (io : List Str) :
    ∃ sp' io', windowAdjust ⟨tk, t, s, p, sp, io⟩ = ⟨tk, t, s, p, sp', io'⟩ := by
  unfold windowAdjust
  dsimp only
  split <;> split <;> exact ⟨_, _, rfl⟩

theorem tokStep_sym_lower (c : Char) (hc : c.isLower = true)
    (tk : List FormulaToken) (t : Str) (p : Bool) (sp : List ℤ) (io : List Str)
    (pos : ℕ) :
    ∃ sp' io', tokStep ⟨tk, t, .SYMBOL, p, sp, io⟩ pos c =
      .ok ⟨tk, t ++ [c], .SYMBOL, p, sp', io'⟩ := by
  obtain ⟨ha, hu, _⟩ := lower_facts c hc
  obtain ⟨sp', io', hw⟩ := windowAdjust_core tk (t ++ [c]) .SYMBOL p sp io
  refine ⟨sp', io', ?_⟩
  have hs : state_symbol pos c t tk p io sp = .ok (.SYMBOL, t ++ [c], tk, p, io, sp) := by
    simp [state_symbol, ha, hu]
  simp only [tokStep, hs]
  exact congrArg Except.ok hw

theorem windowAdjust_poly (tk : List FormulaToken) (t : Str) (s : TokenState)
    (sp : List ℤ) (io : List Str) :
    windowAdjust ⟨tk, t, s, true, sp, io⟩ = ⟨tk, t, s, true, [], []⟩ := by
  unfold windowAdjust
  dsimp only
  split <;> rfl

theorem tokStep_start_upper (c : Char) (hc : c.isUpper = true)
    (tk : List FormulaToken) (t : Str) (p : Bool) (sp : List ℤ) (io : List Str)
    (pos : ℕ) :
    tokStep ⟨tk, t, .START, p, sp, io⟩ pos c = .ok ⟨tk, [c], .SYMBOL, p, [], []⟩ := by
  obtain ⟨ha, _, hbr, _⟩ := upper_facts c hc
  have hs : state_start c tk p = .ok (.SYMBOL, [c], tk, p) := by
    simp [state_start, hbr, ha]
  have hw : windowAdjust ⟨tk, [c], .SYMBOL, p, [], []⟩ = ⟨tk, [c], .SYMBOL, p, [], []⟩ := by
    cases p <;> rfl
  simp only [tokStep, hs]
  exact congrArg Except.ok hw

theorem tokStep_sym_upper (c : Char) (hc : c.isUpper = true)
    (tk : List FormulaToken) (t : Str) (p : Bool) (sp : List ℤ) (io : List Str)
    (pos : ℕ) :
    ∃ sp' io', tokStep ⟨tk, t, .SYMBOL, p, sp, io⟩ pos c =
      .ok ⟨tk ++ [⟨.SYMBOL, t⟩], [c], .SYMBOL, p, sp', io'⟩ := by
  obtain ⟨ha, _⟩ := upper_facts c hc
  obtain ⟨sp', io', hw⟩ := windowAdjust_core (tk ++ [⟨.SYMBOL, t⟩]) [c] .SYMBOL p
    (sp ++ [(pos : ℤ) - 1]) (io ++ [t])
  refine ⟨sp', io', ?_⟩
  have hs : state_symbol pos c t tk p io sp =
      .ok (.SYMBOL, [c], tk ++ [⟨.SYMBOL, t⟩], p, io ++ [t], sp ++ [(pos : ℤ) - 1]) := by
    simp [state_symbol, ha, hc]
  simp only [tokStep, hs]
  exact congrArg Except.ok hw

theorem tokStep_sym_digit (c : Char) (hc : c.isDigit = true)
    (tk : List FormulaToken) (t : Str) (p : Bool) (sp : List ℤ) (io : List Str)
    (pos : ℕ) :
    ∃ sp' io', tokStep ⟨tk, t, .SYMBOL, p, sp, io⟩ pos c =
      .ok ⟨tk ++ [⟨.SYMBOL, t⟩], [c], .SUBSCRIPT, p, sp', io'⟩ := by
  obtain ⟨ha, _⟩ := digit_facts c hc
  obtain ⟨sp', io', hw⟩ := windowAdjust_core (tk ++ [⟨.SYMBOL, t⟩]) [c] .SUBSCRIPT p sp io
  refine ⟨sp', io', ?_⟩
  have hs : state_symbol pos c t tk p io sp =
      .ok (.SUBSCRIPT, [c], tk ++ [⟨.SYMBOL, t⟩], p, io, sp) := by
    simp [state_symbol, ha, hc]
  simp only [tokStep, hs]
  exact congrArg Except.ok hw

theorem tokStep_sym_lparen (tk : List FormulaToken) (t : Str) (p : Bool)
    (sp : List ℤ) (io : List Str) (pos : ℕ) :
    tokStep ⟨tk, t, .SYMBOL, p, sp, io⟩ pos '(' =
      .ok ⟨tk ++ [⟨.SYMBOL, t⟩, ⟨.POLYATOMIC_START, ['(']⟩], [], .START, true, [], []⟩ := by
  have hs : state_symbol pos '(' t tk p io sp =
      .ok (.START, [], tk ++ [⟨.SYMBOL, t⟩, ⟨.POLYATOMIC_START, ['(']⟩], true, io, sp) := by
    simp +decide [state_symbol]
  simp only [tokStep, hs]
  exact congrArg Except.ok (windowAdjust_poly _ _ _ _ _)

theorem tokStep_sym_rparen (tk : List FormulaToken) (t : Str)
    (ht : ¬(t = ['s'] ∨ t = ['l'] ∨ t = ['g'] ∨ t = ['a', 'q']))
    (sp : List ℤ) (io : List Str) (pos : ℕ) :
    ∃ sp' io', tokStep ⟨tk, t, .SYMBOL, true, sp, io⟩ pos ')' =
      .ok ⟨tk ++ [⟨.SYMBOL, t⟩, ⟨.POLYATOMIC_END, [')']⟩], [], .POLYATOMIC_END, false,
        sp', io'⟩ := by
  obtain ⟨sp', io', hw⟩ := windowAdjust_core
    (tk ++ [⟨.SYMBOL, t⟩, ⟨.POLYATOMIC_END, [')']⟩]) [] .POLYATOMIC_END false sp io
  refine ⟨sp', io', ?_⟩
  have hs : state_symbol pos ')' t tk true io sp =
      .ok (.POLYATOMIC_END, [],
        tk ++ [⟨.SYMBOL, t⟩, ⟨.POLYATOMIC_END, [')']⟩], false, io, sp) := by
    simp +decide [state_symbol, ht]
  simp only [tokStep, hs]
  exact congrArg Except.ok hw

theorem tokStep_sub_digit (c : Char) (hc : c.isDigit = true)
    (tk : List FormulaToken) (t : Str) (p : Bool) (sp : List ℤ) (io : List Str)
    (pos : ℕ) :
    ∃ sp' io', tokStep ⟨tk, t, .SUBSCRIPT, p, sp, io⟩ pos c =
      .ok ⟨tk, t ++ [c], .SUBSCRIPT, p, sp', io'⟩ := by
  obtain ⟨sp', io', hw⟩ := windowAdjust_core tk (t ++ [c]) .SUBSCRIPT p sp io
  refine ⟨sp', io', ?_⟩
  have hs : state_subscript pos c t tk p io sp =
      .ok (.SUBSCRIPT, t ++ [c], tk, p, io, sp) := by
    simp [state_subscript, hc]
  simp only [tokStep, hs]
  exact congrArg Except.ok hw

theorem tokStep_sub_upper (c : Char) (hc : c.isUpper = true)
    (tk : List FormulaToken) (t : Str) (p : Bool) (sp : List ℤ) (io : List Str)
    (pos : ℕ) :
    ∃ sp' io', tokStep ⟨tk, t, .SUBSCRIPT, p, sp, io⟩ pos c =
      .ok ⟨tk ++ [⟨.SUBSCRIPT, t⟩], [c], .SYMBOL, p, sp', io'⟩ := by
  obtain ⟨ha, hd, _⟩ := upper_facts c hc
  obtain ⟨sp', io', hw⟩ := windowAdjust_core (tk ++ [⟨.SUBSCRIPT, t⟩]) [c] .SYMBOL p
    (sp ++ [(pos : ℤ) - ((lastValue tk ++ t).length : ℤ)]) (io ++ [lastValue tk ++ t])
  refine ⟨sp', io', ?_⟩
  have hs : state_subscript pos c t tk p io sp =
      .ok (.SYMBOL, [c], tk ++ [⟨.SUBSCRIPT, t⟩], p, io ++ [lastValue tk ++ t],
        sp ++ [(pos : ℤ) - ((lastValue tk ++ t).length : ℤ)]) := by
    simp [state_subscript, ha, hd]
  simp only [tokStep, hs]
  exact congrArg Except.ok hw

theorem tokStep_sub_lparen (tk : List FormulaToken) (t : Str) (p : Bool)
    (sp : List ℤ) (io : List Str) (pos : ℕ) :
    tokStep ⟨tk, t, .SUBSCRIPT, p, sp, io⟩ pos '(' =
      .ok ⟨tk ++ [⟨.SUBSCRIPT, t⟩, ⟨.POLYATOMIC_START, ['(']⟩], [], .START, true,
        [], []⟩ := by
  have hs : state_subscript pos '(' t tk p io sp =
      .ok (.START, [], tk ++ [⟨.SUBSCRIPT, t⟩, ⟨.POLYATOMIC_START, ['(']⟩], true,
        io ++ [lastValue tk ++ t],
        sp ++ [(pos : ℤ) - ((lastValue tk ++ t).length : ℤ)]) := by
    simp +decide [state_subscript]
  simp only [tokStep, hs]
  exact congrArg Except.ok (windowAdjust_poly _ _ _ _ _)

theorem tokStep_sub_rparen (tk : List FormulaToken) (t : Str)
    (sp : List ℤ) (io : List Str) (pos : ℕ) :
    ∃ sp' io', tokStep ⟨tk, t, .SUBSCRIPT, true, sp, io⟩ pos ')' =
      .ok ⟨tk ++ [⟨.SUBSCRIPT, t⟩, ⟨.POLYATOMIC_END, [')']⟩], [], .POLYATOMIC_END,
        false, sp', io'⟩ := by
  obtain ⟨sp', io', hw⟩ := windowAdjust_core
    (tk ++ [⟨.SUBSCRIPT, t⟩, ⟨.POLYATOMIC_END, [')']⟩]) [] .POLYATOMIC_END false sp io
  refine ⟨sp', io', ?_⟩
  have hs : state_subscript pos ')' t tk true io sp =
      .ok (.POLYATOMIC_END, [],
        tk ++ [⟨.SUBSCRIPT, t⟩, ⟨.POLYATOMIC_END, [')']⟩], false, io, sp) := by
    simp +decide [state_subscript]
  simp only [tokStep, hs]
  exact congrArg Except.ok hw

theorem tokStep_pend_digit (c : Char) (hc : c.isDigit = true)
    (tk : List FormulaToken) (t : Str) (p : Bool) (sp : List ℤ) (io : List Str)
    (pos : ℕ) :
    ∃ sp' io', tokStep ⟨tk, t, .POLYATOMIC_END, p, sp, io⟩ pos c =
      .ok ⟨tk, [c], .SUBSCRIPT, false, sp', io'⟩ := by
  obtain ⟨ha, _⟩ := digit_facts c hc
  obtain ⟨sp', io', hw⟩ := windowAdjust_core tk [c] .SUBSCRIPT false sp io
  refine ⟨sp', io', ?_⟩
  have hs : state_polyatomic_end c tk = .ok (.SUBSCRIPT, [c], tk, false) := by
    simp [state_polyatomic_end, ha, hc]
  simp only [tokStep, hs]
  exact congrArg Except.ok hw

theorem tokLoop_cons_ok (st st' : TokSt) (pos : ℕ) (c : Char) (rest : Str)
    (h : tokStep st pos c = .ok st') :
    tokLoop st pos (c :: rest) = tokLoop st' (pos + 1) rest := by
  rw [tokLoop, h]
  rfl

theorem tokLoop_lowers (ls : Str) (h : ∀ ch ∈ ls, ch.isLower = true) :
    ∀ (tk : List FormulaToken) (t : Str) (p : Bool) (sp : List ℤ) (io : List Str)
      (pos : ℕ) (rest : Str),
    ∃ sp' io' pos', tokLoop ⟨tk, t, .SYMBOL, p, sp, io⟩ pos (ls ++ rest) =
      tokLoop ⟨tk, t ++ ls, .SYMBOL, p, sp', io'⟩ pos' rest := by
  induction ls with
  | nil =>
    intro tk t p sp io pos rest
    exact ⟨sp, io, pos, by simp⟩
  | cons ch ls ih =>
    intro tk t p sp io pos rest
    obtain ⟨sp1, io1, hstep⟩ := tokStep_sym_lower ch (h ch (by simp)) tk t p sp io pos
    obtain ⟨sp', io', pos', hrest⟩ :=
      ih (fun x hx => h x (by simp [hx])) tk (t ++ [ch]) p sp1 io1 (pos + 1) rest
    refine ⟨sp', io', pos', ?_⟩
    rw [List.cons_append, tokLoop_cons_ok _ _ _ _ _ hstep, hrest]
    simp

theorem tokLoop_digits (ds : Str) (h : ∀ ch ∈ ds, ch.isDigit = true) :
    ∀ (tk : List FormulaToken) (t : Str) (p : Bool) (sp : List ℤ) (io : List Str)
      (pos : ℕ) (rest : Str),
    ∃ sp' io' pos', tokLoop ⟨tk, t, .SUBSCRIPT, p, sp, io⟩ pos (ds ++ rest) =
      tokLoop ⟨tk, t ++ ds, .SUBSCRIPT, p, sp', io'⟩ pos' rest := by
  induction ds with
  | nil =>
    intro tk t p sp io pos rest
    exact ⟨sp, io, pos, by simp⟩
  | cons ch ds ih =>
    intro tk t p sp io pos rest
    obtain ⟨sp1, io1, hstep⟩ := tokStep_sub_digit ch (h ch (by simp)) tk t p sp io pos
    obtain ⟨sp', io', pos', hrest⟩ :=
      ih (fun x hx => h x (by simp [hx])) tk (t ++ [ch]) p sp1 io1 (pos + 1) rest
    refine ⟨sp', io', pos', ?_⟩
    rw [List.cons_append, tokLoop_cons_ok _ _ _ _ _ hstep, hrest]
    simp

theorem digitChar_lt10 (d : ℕ) (hd : d < 10) :
    (Char.ofNat (d + '0'.toNat)).isDigit = true ∧
      digitVal (Char.ofNat (d + '0'.toNat)) = d := by
  interval_cases d <;> exact ⟨by decide, by decide⟩

theorem natDigitsRevAux_lt10 : ∀ (fuel n : ℕ), ∀ d ∈ natDigitsRevAux fuel n, d < 10 := by
  intro fuel
  induction fuel with
  | zero =>
    intro n d hd
    simp [natDigitsRevAux] at hd
  | succ f ih =>
    intro n d hd
    match n with
    | 0 => simp [natDigitsRevAux] at hd
    | m + 1 =>
      have heq : natDigitsRevAux (f + 1) (m + 1) =
          (m + 1) % 10 :: natDigitsRevAux f ((m + 1) / 10) := rfl
      rw [heq] at hd
      rcases List.mem_cons.mp hd with rfl | hm
      · exact Nat.mod_lt _ (by omega)
      · exact ih _ d hm

theorem natChars_ne_nil (n : ℕ) : natChars n ≠ [] := by
  unfold natChars
  cases h : natDigits n with
  | nil => simp
  | cons d ds => simp

theorem natChars_digit (n : ℕ) : ∀ ch ∈ natChars n, ch.isDigit = true := by
  unfold natChars
  cases h : natDigits n with
  | nil => intro ch hch; rcases List.mem_singleton.mp hch with rfl; decide
  | cons d ds =>
    intro ch hch
    simp only [List.mem_map] at hch
    obtain ⟨d', hd', rfl⟩ := hch
    have hlt : d' < 10 := by
      have : d' ∈ natDigits n := by rw [h]; exact hd'
      rw [natDigits] at this
      exact natDigitsRevAux_lt10 _ _ _ (List.mem_reverse.mp this)
    exact (digitChar_lt10 d' hlt).1

theorem mk'_int_one (n : ℤ) : Frac.mk' n 1 = ⟨n, 1⟩ := by
  unfold Frac.mk'
  rw [if_neg (by omega : (1 : ℕ) ≠ 0)]
  have hg : fgcd (n.natAbs + 1) n.natAbs 1 = 1 := by
    rw [fgcd_eq_gcd _ _ _ (by omega), Nat.gcd_one_right]
  simp [hg]

theorem symWF_cases (s : Str) (h : symWF s) :
    ∃ u ls, s = u :: ls ∧ u.isUpper = true ∧ ∀ ch ∈ ls, ch.isLower = true := by
  match s, h with
  | u :: ls, h => exact ⟨u, ls, rfl, h.1, h.2⟩

theorem symWF_not_state (s : Str) (h : symWF s) :
    ¬(s = ['s'] ∨ s = ['l'] ∨ s = ['g'] ∨ s = ['a', 'q']) := by
  obtain ⟨u, ls, rfl, hu, _⟩ := symWF_cases s h
  rintro (heq | heq | heq | heq) <;>
  · injection heq with h1 h2
    subst h1
    exact absurd hu (by decide)

theorem atomBody_toks (a : CAtom) :
    atomBody a ++ pendFlush (atomPendSt a) (atomPendTok a) = toksAtom a := by
  by_cases h1 : a.cnt = 1 <;>
    simp [atomBody, atomPendSt, atomPendTok, pendFlush, toksAtom, h1]

theorem atom_pend_ok (a : CAtom) (ha : atomWF a) :
    PendOK (atomPendSt a) (atomPendTok a) := by
  obtain ⟨hsym, hcnt⟩ := ha
  by_cases h1 : a.cnt = 1
  · unfold PendOK atomPendSt atomPendTok
    rw [if_pos h1]
    obtain ⟨u, ls, hseq, _, _⟩ := symWF_cases a.sym hsym
    exact ⟨by rw [hseq]; simp, Or.inl ⟨if_pos h1, hsym⟩⟩
  · unfold PendOK atomPendSt atomPendTok
    rw [if_neg h1]
    exact ⟨natChars_ne_nil _, Or.inr ⟨if_neg h1, natChars_digit _⟩⟩

theorem tokStep_entry_upper (u : Char) (hu : u.isUpper = true)
    (tk : List FormulaToken) (t : Str) (st0 : TokenState) (p : Bool)
    (sp : List ℤ) (io : List Str) (pos : ℕ) (he : EntryOK st0 t) :
    ∃ sp' io', tokStep ⟨tk, t, st0, p, sp, io⟩ pos u =
      .ok ⟨tk ++ pendFlush st0 t, [u], .SYMBOL, p, sp', io'⟩ := by
  unfold EntryOK PendOK at he
  rcases he with hstart | ⟨hne, ⟨hst, hsym⟩ | ⟨hst, hdig⟩⟩
  · subst hstart
    refine ⟨[], [], ?_⟩
    rw [tokStep_start_upper u hu]
    simp [pendFlush]
  · subst hst
    obtain ⟨sp', io', h⟩ := tokStep_sym_upper u hu tk t p sp io pos
    exact ⟨sp', io', by rw [h]; simp [pendFlush]⟩
  · subst hst
    obtain ⟨sp', io', h⟩ := tokStep_sub_upper u hu tk t p sp io pos
    exact ⟨sp', io', by rw [h]; simp [pendFlush]⟩

theorem tokLoop_atom (a : CAtom) (ha : atomWF a)
    (tk : List FormulaToken) (t : Str) (st0 : TokenState) (p : Bool)
    (sp : List ℤ) (io : List Str) (pos : ℕ) (rest : Str) (he : EntryOK st0 t) :
    ∃ sp' io' pos',
      tokLoop ⟨tk, t, st0, p, sp, io⟩ pos (canonAtom a ++ rest) =
        tokLoop ⟨tk ++ pendFlush st0 t ++ atomBody a, atomPendTok a, atomPendSt a, p,
          sp', io'⟩ pos' rest := by
  obtain ⟨hsym, hcnt⟩ := ha
  obtain ⟨u, ls, hseq, hu, hls⟩ := symWF_cases a.sym hsym
  obtain ⟨sp1, io1, hstep⟩ := tokStep_entry_upper u hu tk t st0 p sp io pos he
  by_cases h1 : a.cnt = 1
  · obtain ⟨sp2, io2, pos2, hrun⟩ :=
      tokLoop_lowers ls hls (tk ++ pendFlush st0 t) [u] p sp1 io1 (pos + 1) rest
    refine ⟨sp2, io2, pos2, ?_⟩
    have hstr : canonAtom a ++ rest = u :: (ls ++ rest) := by
      rw [canonAtom, hseq, if_pos h1]
      simp
    rw [hstr, tokLoop_cons_ok _ _ _ _ _ hstep, hrun]
    simp [atomBody, atomPendTok, atomPendSt, h1, hseq]
  · obtain ⟨d, ds, hnc⟩ := List.exists_cons_of_ne_nil (natChars_ne_nil a.cnt)
    have hdig := natChars_digit a.cnt
    have hd : d.isDigit = true := hdig d (by rw [hnc]; simp)
    obtain ⟨sp2, io2, pos2, hrun⟩ :=
      tokLoop_lowers ls hls (tk ++ pendFlush st0 t) [u] p sp1 io1 (pos + 1)
        (natChars a.cnt ++ rest)
    obtain ⟨sp3, io3, hstep2⟩ := tokStep_sym_digit d hd (tk ++ pendFlush st0 t)
      ([u] ++ ls) p sp2 io2 pos2
    obtain ⟨sp4, io4, pos4, hrun2⟩ :=
      tokLoop_digits ds (fun ch hch => hdig ch (by rw [hnc]; simp [hch]))
        (tk ++ pendFlush st0 t ++ [⟨.SYMBOL, [u] ++ ls⟩]) [d] p sp3 io3 (pos2 + 1) rest
    refine ⟨sp4, io4, pos4, ?_⟩
    have hstr : canonAtom a ++ rest = u :: (ls ++ (natChars a.cnt ++ rest)) := by
      rw [canonAtom, hseq, if_neg h1]
      simp
    have hca : (d :: ds) ++ rest = d :: (ds ++ rest) := rfl
    rw [hstr, tokLoop_cons_ok _ _ _ _ _ hstep, hrun, hnc, hca,
      tokLoop_cons_ok _ _ _ _ _ hstep2, hrun2]
    simp [atomBody, atomPendTok, atomPendSt, h1, hseq, hnc]

theorem tokLoop_atoms (l : List CAtom) (hl : ∀ x ∈ l, atomWF x) :
    ∀ (tk : List FormulaToken) (t : Str) (st0 : TokenState) (p : Bool)
      (sp : List ℤ) (io : List Str) (pos : ℕ) (rest : Str), EntryOK st0 t →
    ∃ tk2 st2 t2 sp' io' pos',
      tokLoop ⟨tk, t, st0, p, sp, io⟩ pos (canonAtoms l ++ rest) =
        tokLoop ⟨tk2, t2, st2, p, sp', io'⟩ pos' rest ∧
      tk2 ++ pendFlush st2 t2 = tk ++ pendFlush st0 t ++ toksAtoms l ∧
      ((l = [] ∧ st2 = st0 ∧ t2 = t) ∨ (l ≠ [] ∧ PendOK st2 t2)) := by
  induction l with
  | nil =>
    intro tk t st0 p sp io pos rest he
    exact ⟨tk, st0, t, sp, io, pos, by simp [canonAtoms],
      by simp [toksAtoms], Or.inl ⟨rfl, rfl, rfl⟩⟩
  | cons a l2 ih =>
    intro tk t st0 p sp io pos rest he
    obtain ⟨sp1, io1, pos1, hatom⟩ := tokLoop_atom a (hl a (by simp)) tk t st0 p
      sp io pos (canonAtoms l2 ++ rest) he
    obtain ⟨tk2, st2, t2, sp', io', pos', hrun, htoks, hpend⟩ :=
      ih (fun x hx => hl x (by simp [hx])) (tk ++ pendFlush st0 t ++ atomBody a)
        (atomPendTok a) (atomPendSt a) p sp1 io1 pos1 rest
        (Or.inr (atom_pend_ok a (hl a (by simp))))
    refine ⟨tk2, st2, t2, sp', io', pos', ?_, ?_, Or.inr ⟨by simp, ?_⟩⟩
    · have hstr : canonAtoms (a :: l2) ++ rest = canonAtom a ++ (canonAtoms l2 ++ rest) := by
        simp [canonAtoms]
      rw [hstr, hatom, hrun]
    · rw [htoks]
      have htc : toksAtoms (a :: l2) = toksAtom a ++ toksAtoms l2 := by simp [toksAtoms]
      rw [htc, ← atomBody_toks a]
      simp
    · rcases hpend with ⟨hl2, hst, ht⟩ | ⟨_, hp⟩
      · subst hst
        subst ht
        exact atom_pend_ok a (hl a (by simp))
      · exact hp

theorem tokStep_pend_lparen (tk : List FormulaToken) (t : Str) (st0 : TokenState)
    (p : Bool) (sp : List ℤ) (io : List Str) (pos : ℕ) (hp : PendOK st0 t) :
    tokStep ⟨tk, t, st0, p, sp, io⟩ pos '(' =
      .ok ⟨tk ++ pendFlush st0 t ++ [⟨.POLYATOMIC_START, ['(']⟩], [], .START, true,
        [], []⟩ := by
  unfold PendOK at hp
  rcases hp with ⟨hne, ⟨hst, _⟩ | ⟨hst, _⟩⟩ <;> subst hst
  · rw [tokStep_sym_lparen]
    simp [pendFlush]
  · rw [tokStep_sub_lparen]
    simp [pendFlush]

theorem tokStep_pend_rparen (tk : List FormulaToken) (t : Str) (st0 : TokenState)
    (sp : List ℤ) (io : List Str) (pos : ℕ) (hp : PendOK st0 t) :
    ∃ sp' io', tokStep ⟨tk, t, st0, true, sp, io⟩ pos ')' =
      .ok ⟨tk ++ pendFlush st0 t ++ [⟨.POLYATOMIC_END, [')']⟩], [], .POLYATOMIC_END,
        false, sp', io'⟩ := by
  unfold PendOK at hp
  rcases hp with ⟨hne, ⟨hst, hsym⟩ | ⟨hst, hdig⟩⟩ <;> subst hst
  · obtain ⟨sp', io', h⟩ := tokStep_sym_rparen tk t (symWF_not_state t hsym) sp io pos
    exact ⟨sp', io', by rw [h]; simp [pendFlush]⟩
  · obtain ⟨sp', io', h⟩ := tokStep_sub_rparen tk t sp io pos
    exact ⟨sp', io', by rw [h]; simp [pendFlush]⟩

theorem tokWindow3_tokens (st : TokSt) :
    (tokWindow3 emptyIons st).tokens = st.tokens := by
  unfold tokWindow3
  split <;> rfl

theorem tokWindow2_empty (st : TokSt) : tokWindow2 emptyIons st = st.tokens := by
  unfold tokWindow2
  split <;> rfl

theorem tokFinish_emptyIons (st : TokSt)
    (h : (st.token = [] ∧ st.state = .START) ∨
      (st.token ≠ [] ∧ (st.state = .SYMBOL ∨ st.state = .SUBSCRIPT))) :
    tokFinish emptyIons st = .ok (st.tokens ++ pendFlush st.state st.token) := by
  obtain ⟨tk, t, s, p, sp, io⟩ := st
  rcases h with ⟨ht, hs⟩ | ⟨ht, hs | hs⟩ <;> subst hs <;> dsimp only at ht ⊢
  · subst ht
    have h1 : tokFinish emptyIons ⟨tk, [], .START, p, sp, io⟩ =
        pure (tokWindow2 emptyIons (tokWindow3 emptyIons ⟨tk, [], .START, p, sp, io⟩)) := rfl
    rw [h1, tokWindow2_empty, tokWindow3_tokens]
    exact congrArg Except.ok (by simp [pendFlush])
  · have h1 : tokFinish emptyIons ⟨tk, t, .SYMBOL, p, sp, io⟩ =
        pure (tokWindow2 emptyIons (tokWindow3 emptyIons
          ⟨tk ++ [⟨.SYMBOL, t⟩], t, .SYMBOL, p, sp ++ [-1], io ++ [t]⟩)) := by
      unfold tokFinish
      rw [if_pos ht]
      rfl
    rw [h1, tokWindow2_empty, tokWindow3_tokens]
    exact congrArg Except.ok (by simp [pendFlush])
  · have h1 : tokFinish emptyIons ⟨tk, t, .SUBSCRIPT, p, sp, io⟩ =
        pure (tokWindow2 emptyIons (tokWindow3 emptyIons
          ⟨tk ++ [⟨.SUBSCRIPT, t⟩], t, .SUBSCRIPT, p, sp ++ [-1],
            io ++ [lastValue tk ++ t]⟩)) := by
      unfold tokFinish
      rw [if_pos ht]
      rfl
    rw [h1, tokWindow2_empty, tokWindow3_tokens]
    exact congrArg Except.ok (by simp [pendFlush])

theorem pendOK_of_run (st0 : TokenState) (t : Str) (st2 : TokenState) (t2 : Str)
    (l : List CAtom) (hne : l ≠ [])
    (hpend : (l = [] ∧ st2 = st0 ∧ t2 = t) ∨ (l ≠ [] ∧ PendOK st2 t2)) :
    PendOK st2 t2 := by
  rcases hpend with ⟨h0, _⟩ | ⟨_, hp⟩
  · exact absurd h0 hne
  · exact hp

theorem finish_cond_of_pend (st2 : TokenState) (t2 : Str) (hp : PendOK st2 t2) :
    t2 ≠ [] ∧ (st2 = .SYMBOL ∨ st2 = .SUBSCRIPT) := by
  unfold PendOK at hp
  rcases hp with ⟨hne, ⟨hst, _⟩ | ⟨hst, _⟩⟩
  · exact ⟨hne, Or.inl hst⟩
  · exact ⟨hne, Or.inr hst⟩

theorem tokenize_canonAtoms (l : List CAtom) (hl : ∀ x ∈ l, atomWF x) :
    tokenize emptyIons (canonAtoms l) = .ok (toksAtoms l) := by
  obtain ⟨tk2, st2, t2, sp', io', pos', hrun, htoks, hpend⟩ :=
    tokLoop_atoms l hl [] [] .START false [] [] 0 [] (Or.inl rfl)
  have hrun' : tokLoop ⟨[], [], .START, false, [], []⟩ 0 (canonAtoms l) =
      .ok ⟨tk2, t2, st2, false, sp', io'⟩ := by
    have he : canonAtoms l = canonAtoms l ++ [] := by simp
    rw [he, hrun]
    rfl
  have hcond : (t2 = [] ∧ st2 = TokenState.START) ∨
      (t2 ≠ [] ∧ (st2 = TokenState.SYMBOL ∨ st2 = TokenState.SUBSCRIPT)) := by
    rcases hpend with ⟨h0, hst, ht⟩ | ⟨_, hp⟩
    · exact Or.inl ⟨ht, hst⟩
    · exact Or.inr (finish_cond_of_pend st2 t2 hp)
  have hfin := tokFinish_emptyIons ⟨tk2, t2, st2, false, sp', io'⟩ hcond
  have hstart : tokenize emptyIons (canonAtoms l) =
      tokFinish emptyIons ⟨tk2, t2, st2, false, sp', io'⟩ := by
    unfold tokenize
    rw [hrun']
    rfl
  rw [hstart, hfin]
  refine congrArg Except.ok ?_
  have := htoks
  simp only [List.nil_append] at this
  rw [this]
  rfl

theorem tokenize_atoms_poly (la : List CAtom) (hla : ∀ x ∈ la, atomWF x)
    (hne : la ≠ []) (q : CPoly) (hq : ∀ x ∈ q.atoms, atomWF x)
    (hqne : q.atoms ≠ []) :
    tokenize emptyIons
        (canonAtoms la ++ ('(' :: (canonAtoms q.atoms ++ (')' :: natChars q.cnt)))) =
      .ok (toksAtoms la ++ ⟨.POLYATOMIC_START, ['(']⟩ ::
        (toksAtoms q.atoms ++ ⟨.POLYATOMIC_END, [')']⟩ ::
          [⟨.SUBSCRIPT, natChars q.cnt⟩])) := by
  obtain ⟨tkA, stA, tA, spA, ioA, posA, hrunA, htoksA, hpendA⟩ :=
    tokLoop_atoms la hla [] [] .START false [] [] 0
      ('(' :: (canonAtoms q.atoms ++ (')' :: natChars q.cnt))) (Or.inl rfl)
  have pendA := pendOK_of_run _ _ _ _ la hne hpendA
  have hlparen := tokStep_pend_lparen tkA tA stA false spA ioA posA pendA
  obtain ⟨tkB, stB, tB, spB, ioB, posB, hrunB, htoksB, hpendB⟩ :=
    tokLoop_atoms q.atoms hq
      (tkA ++ pendFlush stA tA ++ [⟨.POLYATOMIC_START, ['(']⟩]) [] .START true [] []
      (posA + 1) (')' :: natChars q.cnt) (Or.inl rfl)
  have pendB := pendOK_of_run _ _ _ _ q.atoms hqne hpendB
  obtain ⟨spC, ioC, hrparen⟩ := tokStep_pend_rparen tkB tB stB spB ioB posB pendB
  obtain ⟨d, ds, hnc⟩ := List.exists_cons_of_ne_nil (natChars_ne_nil q.cnt)
  have hdig := natChars_digit q.cnt
  have hd : d.isDigit = true := hdig d (by rw [hnc]; simp)
  obtain ⟨spD, ioD, hdstep⟩ := tokStep_pend_digit d hd
    (tkB ++ pendFlush stB tB ++ [⟨.POLYATOMIC_END, [')']⟩]) [] false spC ioC (posB + 1)
  obtain ⟨spF, ioF, posF, hrun3⟩ :=
    tokLoop_digits ds (fun ch hch => hdig ch (by rw [hnc]; simp [hch]))
      (tkB ++ pendFlush stB tB ++ [⟨.POLYATOMIC_END, [')']⟩]) [d] false spD ioD
      (posB + 2) []
  have hfull : tokLoop ⟨[], [], .START, false, [], []⟩ 0
      (canonAtoms la ++ ('(' :: (canonAtoms q.atoms ++ (')' :: natChars q.cnt)))) =
      .ok ⟨tkB ++ pendFlush stB tB ++ [⟨.POLYATOMIC_END, [')']⟩], [d] ++ ds,
        .SUBSCRIPT, false, spF, ioF⟩ := by
    have hrun3' := hrun3
    rw [List.append_nil] at hrun3'
    rw [hrunA, tokLoop_cons_ok _ _ _ _ _ hlparen, hrunB,
      tokLoop_cons_ok _ _ _ _ _ hrparen, hnc,
      tokLoop_cons_ok _ _ _ _ _ hdstep, hrun3']
    rfl
  have hcond : (([d] ++ ds) = [] ∧ TokenState.SUBSCRIPT = TokenState.START) ∨
      (([d] ++ ds) ≠ [] ∧ (TokenState.SUBSCRIPT = TokenState.SYMBOL ∨
        TokenState.SUBSCRIPT = TokenState.SUBSCRIPT)) :=
    Or.inr ⟨by simp, Or.inr rfl⟩
  have hfin := tokFinish_emptyIons
    ⟨tkB ++ pendFlush stB tB ++ [⟨.POLYATOMIC_END, [')']⟩], [d] ++ ds,
      .SUBSCRIPT, false, spF, ioF⟩ hcond
  have hstart : tokenize emptyIons
      (canonAtoms la ++ ('(' :: (canonAtoms q.atoms ++ (')' :: natChars q.cnt)))) =
      tokFinish emptyIons ⟨tkB ++ pendFlush stB tB ++ [⟨.POLYATOMIC_END, [')']⟩],
        [d] ++ ds, .SUBSCRIPT, false, spF, ioF⟩ := by
    unfold tokenize
    rw [hfull]
    rfl
  rw [hstart, hfin]
  refine congrArg Except.ok ?_
  have hSTART : pendFlush TokenState.START ([] : Str) = ([] : List FormulaToken) := rfl
  simp only [List.nil_append, hSTART] at htoksA
  have htB : tkB ++ pendFlush stB tB =
      tkA ++ pendFlush stA tA ++ [⟨.POLYATOMIC_START, ['(']⟩] ++ toksAtoms q.atoms := by
    rw [htoksB]
    simp [hSTART]
  show (tkB ++ pendFlush stB tB ++ [⟨.POLYATOMIC_END, [')']⟩]) ++
      [⟨.SUBSCRIPT, [d] ++ ds⟩] = _
  have hnc2 : [d] ++ ds = natChars q.cnt := by simp [hnc]
  rw [htB, htoksA, hnc2]
  simp

theorem canonAtoms_append (l1 l2 : List CAtom) :
    canonAtoms (l1 ++ l2) = canonAtoms l1 ++ canonAtoms l2 := by
  simp [canonAtoms]

theorem toksAtoms_append (l1 l2 : List CAtom) :
    toksAtoms (l1 ++ l2) = toksAtoms l1 ++ toksAtoms l2 := by
  simp [toksAtoms]

theorem tokenize_toksComp (c : CComp) (h : compWF c) :
    tokenize emptyIons (canonComp c) = .ok (toksComp c) := by
  obtain ⟨hatoms, hpoly⟩ := h
  cases hp : c.poly with
  | none =>
    have e1 : canonComp c = canonAtoms c.atoms := by
      rw [canonComp, hp]
      simp
    have e2 : toksComp c = toksAtoms c.atoms := by
      rw [toksComp, hp]
    rw [e1, e2]
    exact tokenize_canonAtoms _ hatoms
  | some p =>
    have hpoly' : polyWF p ∧ c.atoms ≠ [] := by
      rw [hp] at hpoly
      exact hpoly
    obtain ⟨⟨hc1, hqne, hq⟩, hane⟩ := hpoly'
    by_cases h2 : 1 < p.cnt
    · have e1 : canonComp c =
          canonAtoms c.atoms ++ ('(' :: (canonAtoms p.atoms ++ (')' :: natChars p.cnt))) := by
        rw [canonComp, hp]
        dsimp only
        rw [canonPoly, if_pos h2]
        simp
      have e2 : toksComp c = toksAtoms c.atoms ++ ⟨.POLYATOMIC_START, ['(']⟩ ::
          (toksAtoms p.atoms ++ ⟨.POLYATOMIC_END, [')']⟩ ::
            [⟨.SUBSCRIPT, natChars p.cnt⟩]) := by
        rw [toksComp, hp]
        dsimp only
        rw [if_pos h2]
        simp
      rw [e1, e2]
      exact tokenize_atoms_poly c.atoms hatoms hane p hq hqne
    · have e1 : canonComp c = canonAtoms (c.atoms ++ p.atoms) := by
        rw [canonComp, hp]
        dsimp only
        rw [canonPoly, if_neg h2, canonAtoms_append]
      have e2 : toksComp c = toksAtoms (c.atoms ++ p.atoms) := by
        rw [toksComp, hp]
        dsimp only
        rw [if_neg h2]
      rw [e1, e2]
      refine tokenize_canonAtoms _ ?_
      intro x hx
      rcases List.mem_append.mp hx with hm | hm
      · exact hatoms x hm
      · exact hq x hm

/-! Pass one -/

theorem mk'_one_den (n : ℤ) : (Frac.mk' n 1).den = 1 := by
  rw [mk'_int_one]

end ChemLab
